import Mathlib

/-!
Shallow embedding of `cosmos_transfer1/utils/fused_adam.py` (class `FusedAdam`).

The native CUDA kernels (`amp_C.multi_tensor_adam*`) are external to the
repository; their launches are recorded as a trace of `KernelCall` values.
Tensors are modelled as dtype-tagged lists of rationals; Python dict state
(`self.state`) is an association list keyed by a parameter identity `pid`
(in Python, parameter tensors themselves are the dict keys).
-/

/-- Torch dtypes relevant to `FusedAdam.step`; `other` stands for any dtype
that is none of `float16`, `bfloat16`, `float32`. -/
inductive Dtype
  | f16
  | bf16
  | f32
  | other
deriving DecidableEq, Repr

/-- A torch tensor: dtype, shape, flat data, and the `is_sparse` flag. -/
structure Tensor where
  dtype : Dtype
  shape : List Nat
  data : List Rat
  is_sparse : Bool
deriving DecidableEq, Repr

/-- `torch.zeros_like(t)`: zero data, same dtype and shape. -/
def zeros_like (t : Tensor) : Tensor :=
  ⟨t.dtype, t.shape, t.data.map (fun _ => (0 : Rat)), false⟩

/-- `t.float()`: convert to float32, keeping shape and (modelled) values. -/
def Tensor.float (t : Tensor) : Tensor :=
  { t with dtype := Dtype.f32 }

/-- A parameter: identity `pid` (Python object identity, the `self.state`
dict key), its `.data` tensor and its optional `.grad` tensor. -/
structure Param where
  pid : Nat
  data : Tensor
  grad : Option Tensor
deriving DecidableEq, Repr

/-- The per-parameter optimizer state created at lines 212-216: the two
moment buffers.  (The code always creates both together.) -/
structure ParamState where
  exp_avg : Tensor
  exp_avg_sq : Tensor
deriving DecidableEq, Repr

/-- `self.state`, keyed by parameter identity. -/
abbrev StateMap : Type := List (Nat × ParamState)

/-- Dictionary lookup in `self.state`. -/
def findSt : StateMap → Nat → Option ParamState
  | [], _ => none
  | (k, v) :: rest, pid => if k = pid then some v else findSt rest pid

/-- Update the entry at `pid` (if present) in place. -/
def updEntry (st : StateMap) (pid : Nat) (f : ParamState → ParamState) : StateMap :=
  st.map (fun kv => if kv.1 = pid then (kv.1, f kv.2) else kv)

/-- Lines 210-216: `state = self.state[p]`, creating the zero-initialised
float32 moment buffers when the entry is new (`len(state) == 0`). -/
def getOrInit (st : StateMap) (p : Param) : StateMap × ParamState :=
  match findSt st p.pid with
  | some e => (st, e)
  | none =>
    let e : ParamState := ⟨(zeros_like p.data).float, (zeros_like p.data).float⟩
    ((p.pid, e) :: st, e)

/-- A Python value that is either a plain number or a torch tensor holding
one number (used for `lr` and for the capturable `step`). -/
inductive Scalar
  | num (x : Rat)
  | tensor (t : Tensor)
deriving DecidableEq, Repr

/-- The per-group `step` entry: a Python int in non-capturable mode, an
int32 scalar device tensor in capturable mode. -/
inductive StepVal
  | pyInt (n : Int)
  | tensor (v : Int)
deriving DecidableEq, Repr

/-- Numeric value of a `step` entry (what `torch.tensor(step)` would hold). -/
def stepValToInt : StepVal → Int
  | .pyInt n => n
  | .tensor v => v

/-- A parameter group (a `self.param_groups` entry after defaults). -/
structure ParamGroup where
  params : List Param
  lr : Scalar
  bias_correction : Bool
  betas : Rat × Rat
  eps : Rat
  weight_decay : Rat
  step : Option StepVal
deriving DecidableEq, Repr

/-- A `self.param_groups_master` entry: per parameter, the optional fp32
master copy (always `None` when `master_weights` is off). -/
structure MasterGroup where
  params : List (Option Tensor)
deriving DecidableEq, Repr

/-- The slice of a `torch.cuda.amp.GradScaler` that `step` reads: the value
of its per-device inf-check tensor and its scale. -/
structure GradScaler where
  found_inf : Int
  scale : Rat
deriving DecidableEq, Repr

/-- The three `amp_C` native entry points. -/
inductive EntryPoint
  | adam
  | adam_capturable
  | adam_capturable_master
deriving DecidableEq, Repr

/-- The three precision buckets (`_16`, `_bf`, `_32` list families). -/
inductive Precision
  | p16
  | pbf
  | p32
deriving DecidableEq, Repr

/-- One parameter's slot in a precision bucket: its grad, data and moment
tensors, plus the master copy slot (`none` when `master_weights` is off). -/
structure BEntry where
  pid : Nat
  g : Tensor
  p : Tensor
  m : Tensor
  v : Tensor
  master : Option Tensor
deriving DecidableEq, Repr

/-- The per-group bucket lists built at lines 194-240. -/
structure Buckets where
  b16 : List BEntry
  bbf : List BEntry
  b32 : List BEntry
deriving DecidableEq, Repr

def emptyBuckets : Buckets := ⟨[], [], []⟩

/-- One `multi_tensor_applier` launch, with everything the Python code
passes to the native kernel. -/
structure KernelCall where
  entry : EntryPoint
  gidx : Nat
  prec : Precision
  pids : List Nat
  g : List Tensor
  p : List Tensor
  m : List Tensor
  v : List Tensor
  master : Option (List (Option Tensor))
  lr : Scalar
  beta1 : Rat
  beta2 : Rat
  eps : Rat
  step : StepVal
  adam_w_mode : Nat
  bias_correction : Nat
  weight_decay : Rat
  inv_scale : Option Rat
deriving DecidableEq, Repr

/-- The `FusedAdam` optimizer object. -/
structure FusedAdam where
  adam_w_mode : Nat
  capturable : Bool
  master_weights : Bool
  param_groups : List ParamGroup
  param_groups_master : Option (List MasterGroup)
  state : StateMap
  dummy_overflow_buf : Int
deriving DecidableEq, Repr

/-- Outcome of a call to `FusedAdam.step`: the Python result (normal return
or `RuntimeError` message), the mutated optimizer, the trace of native
kernel launches, and whether the closure was invoked. -/
structure StepResult where
  res : Except String Unit
  opt : FusedAdam
  calls : List KernelCall
  closureInvoked : Bool
deriving Repr

def amsgradMsg : String := "FusedAdam does not support the AMSGrad variant."

def masterMsg : String := "Master weights is currently only supported with the capturable version."

def cudaMsg : String := "apex.optimizers.FusedAdam requires cuda extensions"

def deprecatedMsg : String :=
  "FusedAdam has been updated. Simply initialize it identically to torch.optim.Adam, and call step() with no arguments."

def sparseMsg : String :=
  "FusedAdam does not support sparse gradients, please consider SparseAdam instead"

def dtypeMsg : String := "FusedAdam only support fp16 and fp32."

/-- `FusedAdam.__init__` (lines 84-134).  `paramss` is the list of parameter
groups handed to the constructor; `mta_available` models
`multi_tensor_applier.available`.  A raised `RuntimeError` is an `Except`
error carrying the message. -/
def FusedAdam.init (paramss : List (List Param)) (lr : Rat) (bias_correction : Bool)
    (betas : Rat × Rat) (eps : Rat) (adam_w_mode : Bool) (weight_decay : Rat)
    (amsgrad : Bool) (capturable : Bool) (master_weights : Bool)
    (mta_available : Bool) : Except String FusedAdam :=
  if amsgrad then .error amsgradMsg
  else if master_weights && !capturable then .error masterMsg
  else
    let lr0 : Scalar :=
      if capturable then .tensor ⟨Dtype.f32, [], [lr], false⟩ else .num lr
    let groups : List ParamGroup :=
      paramss.map (fun ps => ⟨ps, lr0, bias_correction, betas, eps, weight_decay, none⟩)
    if !mta_available then .error cudaMsg
    else .ok ⟨if adam_w_mode then 1 else 0, capturable, master_weights, groups, none, [], 0⟩

/-- Lines 154-163: on the first `step` call, build `param_groups_master`
from the current parameter values (`p.clone().detach().float()` when
`master_weights`, else `None`). -/
def buildMasters (o : FusedAdam) : List MasterGroup :=
  o.param_groups.map (fun pg =>
    ⟨pg.params.map (fun p => if o.master_weights then some p.data.float else none)⟩)

/-- Lines 174-185: per-group step counter update.  In capturable mode the
increment `(self._dummy_overflow_buf != 1).to(torch.int)` reads the buffer
as it is at this point of the call (before the later `copy_`). -/
def updateStep (capturable : Bool) (buf : Int) : Option StepVal → StepVal
  | some s =>
    if capturable then .tensor (stepValToInt s + (if buf ≠ 1 then 1 else 0))
    else
      match s with
      | .pyInt n => .pyInt (n + 1)
      | .tensor v => .tensor (v + 1)
  | none => if capturable then .tensor 1 else .pyInt 1

/-- Lines 187-192: in capturable mode `group["lr"]` becomes a float32
device tensor (already-tensor values are only moved across devices). -/
def capturableLr : Scalar → Scalar
  | .tensor t => .tensor t
  | .num x => .tensor ⟨Dtype.f32, [], [x], false⟩

/-- Lines 202-240: the bucket-building loop over
`zip(group["params"], group_master["params"])`.  Returns the state map and
buckets as mutated so far and the message of the `RuntimeError`, if one was
raised (which aborts the loop, keeping prior mutations). -/
def buildBuckets (mw : Bool) : List (Param × Option Tensor) → StateMap → Buckets →
    StateMap × Buckets × Option String
  | [], st, bk => (st, bk, none)
  | (p, pm) :: rest, st, bk =>
    match p.grad with
    | none => buildBuckets mw rest st bk
    | some gr =>
      if gr.is_sparse then (st, bk, some sparseMsg)
      else
        let r := getOrInit st p
        let be : BEntry := ⟨p.pid, gr, p.data, r.2.exp_avg, r.2.exp_avg_sq,
          if mw then pm else none⟩
        match p.data.dtype with
        | .f16 => buildBuckets mw rest r.1 { bk with b16 := bk.b16 ++ [be] }
        | .bf16 => buildBuckets mw rest r.1 { bk with bbf := bk.bbf ++ [be] }
        | .f32 => buildBuckets mw rest r.1 { bk with b32 := bk.b32 ++ [be] }
        | .other => (r.1, bk, some dtypeMsg)

/-- Lines 246-250: the value copied into the overflow buffer — the
scaler's per-device inf check, or a zeros tensor without a scaler. -/
def foundInfOf : Option GradScaler → Int
  | some s => s.found_inf
  | none => 0

/-- Lines 253-260: the unscale factor passed to the capturable kernels —
the reciprocal of the scaler's scale, or a ones tensor without a scaler. -/
def invScaleOf : Option GradScaler → Rat
  | some s => s.scale⁻¹
  | none => 1

/-- One `multi_tensor_applier` launch assembled from a bucket (the master
tensor list is passed only when `master_weights` is on). -/
def mkCall (entry : EntryPoint) (gidx : Nat) (prec : Precision) (bk : List BEntry)
    (mw : Bool) (lr : Scalar) (beta1 beta2 eps : Rat) (stepv : StepVal)
    (awm : Nat) (bc : Nat) (wd : Rat) (inv : Option Rat) : KernelCall :=
  { entry := entry, gidx := gidx, prec := prec,
    pids := bk.map (·.pid),
    g := bk.map (·.g), p := bk.map (·.p), m := bk.map (·.m), v := bk.map (·.v),
    master := if mw then some (bk.map (·.master)) else none,
    lr := lr, beta1 := beta1, beta2 := beta2, eps := eps, step := stepv,
    adam_w_mode := awm, bias_correction := bc, weight_decay := wd,
    inv_scale := inv }

/-- Result of processing one parameter group inside `step`. -/
structure GroupResult where
  group : ParamGroup
  state : StateMap
  buf : Int
  calls : List KernelCall
  err : Option String
deriving Repr

/-- Lines 165-365, body of the loop over
`zip(self.param_groups, self.param_groups_master)` for one group. -/
def processGroup (capturable mw : Bool) (awm : Nat) (gidx : Nat)
    (g : ParamGroup) (gm : MasterGroup) (st : StateMap) (buf : Int)
    (grad_scaler : Option GradScaler) : GroupResult :=
  if g.params.isEmpty then ⟨g, st, buf, [], none⟩
  else
    let bc : Nat := if g.bias_correction then 1 else 0
    let beta1 := g.betas.1
    let beta2 := g.betas.2
    let stepv := updateStep capturable buf g.step
    let lr' := if capturable then capturableLr g.lr else g.lr
    let g' : ParamGroup := { g with step := some stepv, lr := lr' }
    match buildBuckets mw (g.params.zip gm.params) st emptyBuckets with
    | (st', _, some e) => ⟨g', st', buf, [], some e⟩
    | (st', bk, none) =>
      if capturable then
        let found_inf : Int := foundInfOf grad_scaler
        let inv : Rat := invScaleOf grad_scaler
        let entry := if mw then EntryPoint.adam_capturable_master
          else EntryPoint.adam_capturable
        let calls :=
          (if bk.b16.isEmpty then [] else
            [mkCall entry gidx .p16 bk.b16 mw lr' beta1 beta2 g.eps stepv awm bc
              g.weight_decay (some inv)]) ++
          (if bk.bbf.isEmpty then [] else
            [mkCall entry gidx .pbf bk.bbf mw lr' beta1 beta2 g.eps stepv awm bc
              g.weight_decay (some inv)]) ++
          (if bk.b32.isEmpty then [] else
            [mkCall entry gidx .p32 bk.b32 mw lr' beta1 beta2 g.eps stepv awm bc
              g.weight_decay (some inv)])
        ⟨g', st', found_inf, calls, none⟩
      else
        let calls :=
          (if bk.b16.isEmpty then [] else
            [mkCall .adam gidx .p16 bk.b16 mw lr' beta1 beta2 g.eps stepv awm bc
              g.weight_decay none]) ++
          (if bk.bbf.isEmpty then [] else
            [mkCall .adam gidx .pbf bk.bbf mw lr' beta1 beta2 g.eps stepv awm bc
              g.weight_decay none]) ++
          (if bk.b32.isEmpty then [] else
            [mkCall .adam gidx .p32 bk.b32 mw lr' beta1 beta2 g.eps stepv awm bc
              g.weight_decay none])
        ⟨g', st', buf, calls, none⟩

/-- Accumulated result of the group loop. -/
structure GroupsResult where
  groups : List ParamGroup
  state : StateMap
  buf : Int
  calls : List KernelCall
  err : Option String
deriving Repr

/-- The group loop: a raised error aborts the remaining groups, keeping all
mutations made so far (remaining groups stay as they were). -/
def processGroups (capturable mw : Bool) (awm : Nat)
    (grad_scaler : Option GradScaler) :
    List (ParamGroup × MasterGroup) → Nat → StateMap → Int → GroupsResult
  | [], _, st, buf => ⟨[], st, buf, [], none⟩
  | (g, gm) :: rest, i, st, buf =>
    let r := processGroup capturable mw awm i g gm st buf grad_scaler
    match r.err with
    | some e => ⟨r.group :: rest.map Prod.fst, r.state, r.buf, r.calls, some e⟩
    | none =>
      let rr := processGroups capturable mw awm grad_scaler rest (i + 1) r.state r.buf
      ⟨r.group :: rr.groups, rr.state, rr.buf, r.calls ++ rr.calls, rr.err⟩

/-- The master groups `step` zips against: the existing
`self.param_groups_master` or, on the first call, the freshly built one. -/
def mastersOf (o : FusedAdam) : List MasterGroup :=
  match o.param_groups_master with
  | some m => m
  | none => buildMasters o

/-- `FusedAdam.step` (lines 136-367).  The four deprecated arguments are
modelled as `Option Unit` since only `is not None` is checked; `closure` as
`Option Unit` (its loss value is opaque); `grad_scaler` by the slice of the
scaler that is read. -/
def FusedAdam.step (o : FusedAdam) (closure : Option Unit)
    (grads output_params scale grad_norms : Option Unit)
    (grad_scaler : Option GradScaler) : StepResult :=
  if grads.isSome || output_params.isSome || scale.isSome || grad_norms.isSome then
    ⟨.error deprecatedMsg, o, [], false⟩
  else
    let masters := mastersOf o
    let zl := o.param_groups.zip masters
    let r := processGroups o.capturable o.master_weights o.adam_w_mode grad_scaler
      zl 0 o.state o.dummy_overflow_buf
    ⟨match r.err with
      | some e => .error e
      | none => .ok (),
     { o with
        param_groups := r.groups ++ o.param_groups.drop zl.length,
        param_groups_master := some masters,
        state := r.state,
        dummy_overflow_buf := r.buf },
     r.calls, closure.isSome⟩

/-- Lines 371-393 applied to one group.  In the capturable branch the step
tensor is built on rank 0 and broadcast from rank 0
(`distributed.broadcast(step, 0)`), so every rank ends up with rank 0's
tensor-ised value. -/
def loadGroup (capturable : Bool) (g : ParamGroup) : ParamGroup :=
  let g1 := if capturable then { g with lr := capturableLr g.lr } else g
  match g1.step with
  | none => g1
  | some s =>
    if capturable then { g1 with step := some (.tensor (stepValToInt s)) }
    else
      match s with
      | .tensor v => { g1 with step := some (.pyInt v) }
      | .pyInt _ => g1

/-- Lines 394-398 for one group: re-cast both moment buffers of every
parameter that has state to float32. -/
def floatPass (params : List Param) (st : StateMap) : StateMap :=
  params.foldl (fun st p =>
    match findSt st p.pid with
    | none => st
    | some _ => updEntry st p.pid (fun e => ⟨e.exp_avg.float, e.exp_avg_sq.float⟩)) st

/-- `FusedAdam.load_state_dict` (lines 369-398), applied to the optimizer
as it stands after `super().load_state_dict(state_dict)` (the torch base
class, external to this repository) has installed the loaded groups and
state. -/
def FusedAdam.load_state_dict (o : FusedAdam) : FusedAdam :=
  { o with
    param_groups := o.param_groups.map (loadGroup o.capturable),
    state := o.param_groups.foldl (fun st g => floatPass g.params st) o.state }

/-! ## Claims about `__init__` and the deprecated-argument guard -/

/-- Claim C8: `FusedAdam.__init__` raises `RuntimeError` when `amsgrad` is
true, and when `master_weights` is true while `capturable` is false; in the
embedding the error is the whole result, so no parameter groups or
optimizer state exist on these errors. -/
theorem init_rejects_amsgrad_and_noncapturable_master
    (paramss : List (List Param)) (lr : Rat) (bc : Bool) (betas : Rat × Rat)
    (eps : Rat) (awm : Bool) (wd : Rat) (amsgrad capturable master_weights mta : Bool) :
    (amsgrad = true →
      FusedAdam.init paramss lr bc betas eps awm wd amsgrad capturable master_weights mta
        = .error amsgradMsg) ∧
    (amsgrad = false → master_weights = true → capturable = false →
      FusedAdam.init paramss lr bc betas eps awm wd amsgrad capturable master_weights mta
        = .error masterMsg) := by
  constructor
  · intro h
    simp [FusedAdam.init, h]
  · intro h1 h2 h3
    simp [FusedAdam.init, h1, h2, h3]

/-- Closed witness for C8 at concrete arguments. -/
theorem init_rejects_witness :
    FusedAdam.init [] 1 true (9/10, 99/100) (1/100000000) true 0 true false false true
      = .error amsgradMsg ∧
    FusedAdam.init [] 1 true (9/10, 99/100) (1/100000000) true 0 false false true true
      = .error masterMsg :=
  ⟨(init_rejects_amsgrad_and_noncapturable_master [] 1 true (9/10, 99/100) (1/100000000)
      true 0 true false false true).1 rfl,
   (init_rejects_amsgrad_and_noncapturable_master [] 1 true (9/10, 99/100) (1/100000000)
      true 0 false false true true).2 rfl rfl rfl⟩

/-- Claim C9: any non-`None` deprecated argument makes `step` raise the
`RuntimeError` immediately: the optimizer is returned unchanged, no kernel
is launched, and the closure is not invoked. -/
theorem step_deprecated_args_error (o : FusedAdam) (closure : Option Unit)
    (grads output_params scale grad_norms : Option Unit)
    (grad_scaler : Option GradScaler)
    (h : grads = some () ∨ output_params = some () ∨ scale = some () ∨ grad_norms = some ()) :
    o.step closure grads output_params scale grad_norms grad_scaler
      = ⟨.error deprecatedMsg, o, [], false⟩ := by
  rcases h with h | h | h | h <;> subst h <;> simp [FusedAdam.step]

/-- Closed witness for C9. -/
theorem step_deprecated_args_error_witness :
    (⟨1, false, false, [], none, [], 0⟩ : FusedAdam).step (some ()) none none (some ()) none none
      = ⟨.error deprecatedMsg, ⟨1, false, false, [], none, [], 0⟩, [], false⟩ :=
  step_deprecated_args_error _ _ _ _ _ _ _ (Or.inr (Or.inr (Or.inl rfl)))

/-! ## Claim C6: master weights built exactly once -/

/-- Claim C6: on the first `step` call (`param_groups_master is None`) the
master groups are created with one entry per parameter — a detached fp32
clone of the parameter when `master_weights` is on, `None` otherwise — and
on later calls the existing `param_groups_master` is kept as is. -/
theorem step_builds_masters_once (o : FusedAdam) (closure : Option Unit)
    (grad_scaler : Option GradScaler) :
    (o.param_groups_master = none →
      (o.step closure none none none none grad_scaler).opt.param_groups_master =
        some (o.param_groups.map (fun pg =>
          ⟨pg.params.map (fun p => if o.master_weights then some p.data.float else none)⟩))) ∧
    (∀ m, o.param_groups_master = some m →
      (o.step closure none none none none grad_scaler).opt.param_groups_master = some m) := by
  constructor
  · intro h
    simp [FusedAdam.step, mastersOf, h, buildMasters]
  · intro m h
    simp [FusedAdam.step, mastersOf, h]

/-! ## Structural lemmas about the group loop -/

/-- The group returned by `processGroup`: untouched when empty, otherwise
only its `step` and (in capturable mode) `lr` entries are rewritten, before
the bucket loop runs. -/
theorem processGroup_group (capturable mw : Bool) (awm gidx : Nat) (g : ParamGroup)
    (gm : MasterGroup) (st : StateMap) (buf : Int) (sc : Option GradScaler) :
    (processGroup capturable mw awm gidx g gm st buf sc).group =
      if g.params.isEmpty then g
      else { g with step := some (updateStep capturable buf g.step),
                    lr := if capturable then capturableLr g.lr else g.lr } := by
  unfold processGroup
  split
  · simp_all
  · rcases h : buildBuckets mw (g.params.zip gm.params) st emptyBuckets with ⟨st', bk, err⟩
    cases err
    · simp only [h]
      split <;> rfl
    · simp only [h]

/-- `processGroups` on a single group yields exactly that group's
`processGroup` image, whether or not the group raised. -/
theorem processGroups_singleton (capt mw : Bool) (awm : Nat) (sc : Option GradScaler)
    (g : ParamGroup) (gm : MasterGroup) (i : Nat) (st : StateMap) (buf : Int) :
    (processGroups capt mw awm sc [(g, gm)] i st buf).groups =
      [(processGroup capt mw awm i g gm st buf sc).group] := by
  cases h : (processGroup capt mw awm i g gm st buf sc).err <;>
    simp [processGroups, h]

/-- Membership in `if b then [] else [x]` forces equality with `x`. -/
theorem mem_ite_nil_single {α : Type} {c x : α} {p : Prop} [Decidable p]
    (h : c ∈ (if p then ([] : List α) else [x])) : c = x := by
  split at h
  · simp at h
  · simpa using h

/-- An empty group is skipped entirely. -/
theorem processGroup_empty (capt mw : Bool) (awm i : Nat) (g : ParamGroup)
    (gm : MasterGroup) (st : StateMap) (buf : Int) (sc : Option GradScaler)
    (h : g.params = []) :
    processGroup capt mw awm i g gm st buf sc = ⟨g, st, buf, [], none⟩ := by
  simp [processGroup, h]

/-- Every kernel launch of one group carries the flag-selected entry point,
the group's index, and (exactly in capturable mode) the inverse scale
derived from the grad scaler. -/
theorem processGroup_calls_fields (capt mw : Bool) (awm i : Nat) (g : ParamGroup)
    (gm : MasterGroup) (st : StateMap) (buf : Int) (sc : Option GradScaler) :
    ∀ c ∈ (processGroup capt mw awm i g gm st buf sc).calls,
      c.entry = (if capt then
          (if mw then EntryPoint.adam_capturable_master else EntryPoint.adam_capturable)
        else EntryPoint.adam) ∧
      c.gidx = i ∧
      c.inv_scale = (if capt then some (invScaleOf sc) else none) := by
  intro c hc
  unfold processGroup at hc
  split at hc
  · simp at hc
  · rcases h : buildBuckets mw (g.params.zip gm.params) st emptyBuckets with ⟨st', bk, err⟩
    rw [h] at hc
    cases err with
    | some e => simp at hc
    | none =>
      simp only at hc
      split at hc
      next hcap =>
        simp only [hcap, if_true]
        rcases List.mem_append.mp hc with h1 | h1
        · rcases List.mem_append.mp h1 with h2 | h2
          · rw [mem_ite_nil_single h2]
            exact ⟨rfl, rfl, rfl⟩
          · rw [mem_ite_nil_single h2]
            exact ⟨rfl, rfl, rfl⟩
        · rw [mem_ite_nil_single h1]
          exact ⟨rfl, rfl, rfl⟩
      next hcap =>
        rw [if_neg hcap, if_neg hcap]
        rcases List.mem_append.mp hc with h1 | h1
        · rcases List.mem_append.mp h1 with h2 | h2
          · rw [mem_ite_nil_single h2]
            exact ⟨rfl, rfl, rfl⟩
          · rw [mem_ite_nil_single h2]
            exact ⟨rfl, rfl, rfl⟩
        · rw [mem_ite_nil_single h1]
          exact ⟨rfl, rfl, rfl⟩
/-- Lift of `processGroup_calls_fields` over the whole group loop: the
entry point and inverse scale are uniform across groups, and each call is
tagged with its group's index (at least the loop's starting index). -/
theorem processGroups_calls_fields (capt mw : Bool) (awm : Nat)
    (sc : Option GradScaler) :
    ∀ (l : List (ParamGroup × MasterGroup)) (i : Nat) (st : StateMap) (buf : Int),
      ∀ c ∈ (processGroups capt mw awm sc l i st buf).calls,
        c.entry = (if capt then
            (if mw then EntryPoint.adam_capturable_master else EntryPoint.adam_capturable)
          else EntryPoint.adam) ∧
        c.inv_scale = (if capt then some (invScaleOf sc) else none) := by
  intro l
  induction l with
  | nil =>
    intro i st buf c hc
    simp [processGroups] at hc
  | cons pr rest ih =>
    intro i st buf c hc
    rcases pr with ⟨g, gm⟩
    rw [processGroups] at hc
    cases herr : (processGroup capt mw awm i g gm st buf sc).err with
    | some e =>
      rw [herr] at hc
      simp only at hc
      have := processGroup_calls_fields capt mw awm i g gm st buf sc c hc
      exact ⟨this.1, this.2.2⟩
    | none =>
      rw [herr] at hc
      simp only at hc
      rcases List.mem_append.mp hc with h1 | h1
      · have := processGroup_calls_fields capt mw awm i g gm st buf sc c h1
        exact ⟨this.1, this.2.2⟩
      · exact ih (i + 1) _ _ c h1

/-- The trace of `step` is the trace of its group loop. -/
theorem step_calls_eq (o : FusedAdam) (closure : Option Unit) (sc : Option GradScaler) :
    (o.step closure none none none none sc).calls =
      (processGroups o.capturable o.master_weights o.adam_w_mode sc
        (o.param_groups.zip (mastersOf o)) 0 o.state o.dummy_overflow_buf).calls := by
  simp [FusedAdam.step]

/-- The overflow buffer after `step` is the buffer after its group loop. -/
theorem step_buf_eq (o : FusedAdam) (closure : Option Unit) (sc : Option GradScaler) :
    (o.step closure none none none none sc).opt.dummy_overflow_buf =
      (processGroups o.capturable o.master_weights o.adam_w_mode sc
        (o.param_groups.zip (mastersOf o)) 0 o.state o.dummy_overflow_buf).buf := by
  simp [FusedAdam.step]

/-- The state after `step` is the state after its group loop. -/
theorem step_state_eq (o : FusedAdam) (closure : Option Unit) (sc : Option GradScaler) :
    (o.step closure none none none none sc).opt.state =
      (processGroups o.capturable o.master_weights o.adam_w_mode sc
        (o.param_groups.zip (mastersOf o)) 0 o.state o.dummy_overflow_buf).state := by
  simp [FusedAdam.step]

/-- `step` returns normally iff no group raised. -/
theorem step_res_ok_iff (o : FusedAdam) (closure : Option Unit) (sc : Option GradScaler) :
    (o.step closure none none none none sc).res = .ok () ↔
      (processGroups o.capturable o.master_weights o.adam_w_mode sc
        (o.param_groups.zip (mastersOf o)) 0 o.state o.dummy_overflow_buf).err = none := by
  cases herr : (processGroups o.capturable o.master_weights o.adam_w_mode sc
      (o.param_groups.zip (mastersOf o)) 0 o.state o.dummy_overflow_buf).err with
  | some e => simp [FusedAdam.step, herr]
  | none => simp [FusedAdam.step, herr]

/-- A raising group leaves the overflow buffer as it was (the raise happens
before the `copy_`). -/
theorem processGroup_buf_err (capt mw : Bool) (awm i : Nat) (g : ParamGroup)
    (gm : MasterGroup) (st : StateMap) (buf : Int) (sc : Option GradScaler) (e : String)
    (he : (processGroup capt mw awm i g gm st buf sc).err = some e) :
    (processGroup capt mw awm i g gm st buf sc).buf = buf := by
  by_cases hemp : g.params.isEmpty = true
  · rw [processGroup_empty capt mw awm i g gm st buf sc (List.isEmpty_iff.mp hemp)] at he
    simp at he
  · simp only [processGroup, if_neg hemp] at he ⊢
    rcases h : buildBuckets mw (g.params.zip gm.params) st emptyBuckets with ⟨st', bk, err⟩
    simp only [h] at he ⊢
    cases err with
    | some e2 => rfl
    | none =>
      simp only at he
      split at he <;> simp at he

/-- A non-raising, non-empty group in capturable mode leaves the buffer
equal to the scaler's inf check (or zero without a scaler). -/
theorem processGroup_buf_capturable (mw : Bool) (awm i : Nat) (g : ParamGroup)
    (gm : MasterGroup) (st : StateMap) (buf : Int) (sc : Option GradScaler)
    (hne : g.params ≠ [])
    (hok : (processGroup true mw awm i g gm st buf sc).err = none) :
    (processGroup true mw awm i g gm st buf sc).buf = foundInfOf sc := by
  have hemp : ¬g.params.isEmpty = true := by simpa [List.isEmpty_iff] using hne
  simp only [processGroup, if_neg hemp] at hok ⊢
  rcases h : buildBuckets mw (g.params.zip gm.params) st emptyBuckets with ⟨st', bk, err⟩
  simp only [h] at hok ⊢
  cases err with
  | some e2 => simp at hok
  | none => rfl

/-- Buffer after the whole capturable group loop: the last processed
non-empty group wrote `foundInfOf sc`; if every group is empty the buffer
is untouched. -/
theorem processGroups_buf (mw : Bool) (awm : Nat) (sc : Option GradScaler) :
    ∀ (l : List (ParamGroup × MasterGroup)) (i : Nat) (st : StateMap) (buf : Int),
      (processGroups true mw awm sc l i st buf).err = none →
      ((∃ pr ∈ l, pr.1.params ≠ []) →
          (processGroups true mw awm sc l i st buf).buf = foundInfOf sc) ∧
      ((∀ pr ∈ l, pr.1.params = []) →
          (processGroups true mw awm sc l i st buf).buf = buf) := by
  intro l
  induction l with
  | nil =>
    intro i st buf _
    constructor
    · rintro ⟨pr, hpr, _⟩
      simp at hpr
    · intro _
      simp [processGroups]
  | cons pr rest ih =>
    intro i st buf herr
    rcases pr with ⟨g, gm⟩
    rw [processGroups] at herr ⊢
    cases hr : (processGroup true mw awm i g gm st buf sc).err with
    | some e =>
      rw [hr] at herr
      simp at herr
    | none =>
      rw [hr] at herr
      simp only at herr ⊢
      by_cases hg : g.params = []
      · have hre := processGroup_empty true mw awm i g gm st buf sc hg
        rw [hre] at herr ⊢
        have hih := ih (i + 1) st buf herr
        constructor
        · rintro ⟨pr, hpr, hne⟩
          rcases List.mem_cons.mp hpr with rfl | hpr2
          · exact absurd hg hne
          · exact hih.1 ⟨pr, hpr2, hne⟩
        · intro hall
          exact hih.2 (fun pr hpr => hall pr (List.mem_cons_of_mem _ hpr))
      · have hrbuf := processGroup_buf_capturable mw awm i g gm st buf sc hg hr
        have hih := ih (i + 1) (processGroup true mw awm i g gm st buf sc).state
          (processGroup true mw awm i g gm st buf sc).buf herr
        constructor
        · intro _
          by_cases hrest : ∀ pr ∈ rest, pr.1.params = []
          · rw [hih.2 hrest, hrbuf]
          · push_neg at hrest
            exact hih.1 hrest
        · intro hall
          exact absurd (hall (g, gm) (List.mem_cons_self _ _)) hg

/-! ## Claim C5: gradient-scaler interaction in capturable mode -/

/-- Claim C5: on a successful capturable `step`, every kernel launch gets
inverse scale 1 without a scaler and the reciprocal of the scaler's scale
with one; and (whenever some group is actually processed) the overflow
buffer ends up 0 without a scaler and equal to the scaler's per-device inf
check with one. -/
theorem capturable_scaler_interaction (o : FusedAdam) (closure : Option Unit)
    (sc : Option GradScaler) (hcap : o.capturable = true)
    (hok : (o.step closure none none none none sc).res = .ok ()) :
    (sc = none →
      ∀ c ∈ (o.step closure none none none none sc).calls, c.inv_scale = some 1) ∧
    (∀ s, sc = some s →
      ∀ c ∈ (o.step closure none none none none sc).calls,
        c.inv_scale = some s.scale⁻¹) ∧
    ((∃ pr ∈ o.param_groups.zip (mastersOf o), pr.1.params ≠ []) →
      (sc = none →
        (o.step closure none none none none sc).opt.dummy_overflow_buf = 0) ∧
      (∀ s, sc = some s →
        (o.step closure none none none none sc).opt.dummy_overflow_buf
          = s.found_inf)) := by
  have herr := (step_res_ok_iff o closure sc).mp hok
  rw [hcap] at herr
  have hbuf := processGroups_buf o.master_weights o.adam_w_mode sc
    (o.param_groups.zip (mastersOf o)) 0 o.state o.dummy_overflow_buf herr
  have hinv : ∀ c ∈ (o.step closure none none none none sc).calls,
      c.inv_scale = some (invScaleOf sc) := by
    intro c hc
    rw [step_calls_eq] at hc
    rw [hcap] at hc
    have := (processGroups_calls_fields true o.master_weights o.adam_w_mode sc
      (o.param_groups.zip (mastersOf o)) 0 o.state o.dummy_overflow_buf c hc).2
    simpa using this
  refine ⟨?_, ?_, ?_⟩
  · intro hsc c hc
    rw [hinv c hc, hsc]
    rfl
  · intro s hsc c hc
    rw [hinv c hc, hsc]
    rfl
  · intro hex
    have hb : (o.step closure none none none none sc).opt.dummy_overflow_buf
        = foundInfOf sc := by
      rw [step_buf_eq, hcap]
      exact hbuf.1 hex
    constructor
    · intro hsc
      rw [hb, hsc]
      rfl
    · intro s hsc
      rw [hb, hsc]
      rfl

/-! ## Claim C1: one launch per non-empty precision bucket -/

/-- Claim C1: every kernel launch of `step` uses the entry point selected
by the flags (`adam_capturable_master` when capturable and master weights,
`adam_capturable` when capturable only, `adam` otherwise); and within a
non-raising group, each precision bucket gives rise to exactly one launch
when non-empty and none when empty, all tagged with the group's index. -/
theorem one_launch_per_bucket :
    (∀ (o : FusedAdam) (closure : Option Unit) (sc : Option GradScaler),
      ∀ c ∈ (o.step closure none none none none sc).calls,
        c.entry = (if o.capturable then
            (if o.master_weights then EntryPoint.adam_capturable_master
             else EntryPoint.adam_capturable)
          else EntryPoint.adam)) ∧
    (∀ (capt mw : Bool) (awm i : Nat) (g : ParamGroup) (gm : MasterGroup)
        (st : StateMap) (buf : Int) (sc : Option GradScaler),
      (processGroup capt mw awm i g gm st buf sc).err = none →
      (∀ c ∈ (processGroup capt mw awm i g gm st buf sc).calls, c.gidx = i) ∧
      (((processGroup capt mw awm i g gm st buf sc).calls.filter
          (fun c => decide (c.prec = .p16))).length =
        if (buildBuckets mw (g.params.zip gm.params) st emptyBuckets).2.1.b16.isEmpty
          then 0 else 1) ∧
      (((processGroup capt mw awm i g gm st buf sc).calls.filter
          (fun c => decide (c.prec = .pbf))).length =
        if (buildBuckets mw (g.params.zip gm.params) st emptyBuckets).2.1.bbf.isEmpty
          then 0 else 1) ∧
      (((processGroup capt mw awm i g gm st buf sc).calls.filter
          (fun c => decide (c.prec = .p32))).length =
        if (buildBuckets mw (g.params.zip gm.params) st emptyBuckets).2.1.b32.isEmpty
          then 0 else 1)) := by
  constructor
  · intro o closure sc c hc
    rw [step_calls_eq] at hc
    exact (processGroups_calls_fields o.capturable o.master_weights o.adam_w_mode sc
      (o.param_groups.zip (mastersOf o)) 0 o.state o.dummy_overflow_buf c hc).1
  · intro capt mw awm i g gm st buf sc hok
    by_cases hemp : g.params.isEmpty = true
    · have hnil : g.params = [] := List.isEmpty_iff.mp hemp
      rw [processGroup_empty capt mw awm i g gm st buf sc hnil, hnil]
      simp [buildBuckets, emptyBuckets]
    · simp only [processGroup, if_neg hemp] at hok ⊢
      rcases h : buildBuckets mw (g.params.zip gm.params) st emptyBuckets with ⟨st', bk, err⟩
      simp only [h] at hok ⊢
      cases err with
      | some e => simp at hok
      | none =>
        simp only at hok ⊢
        split
        · refine ⟨?_, ?_, ?_, ?_⟩
          · intro c hc
            rcases List.mem_append.mp hc with h1 | h1
            · rcases List.mem_append.mp h1 with h2 | h2
              · rw [mem_ite_nil_single h2]
                rfl
              · rw [mem_ite_nil_single h2]
                rfl
            · rw [mem_ite_nil_single h1]
              rfl
          all_goals
            by_cases h16 : bk.b16.isEmpty <;> by_cases hbf : bk.bbf.isEmpty <;>
              by_cases h32 : bk.b32.isEmpty <;>
              simp [h16, hbf, h32, mkCall, List.filter_append]
        · refine ⟨?_, ?_, ?_, ?_⟩
          · intro c hc
            rcases List.mem_append.mp hc with h1 | h1
            · rcases List.mem_append.mp h1 with h2 | h2
              · rw [mem_ite_nil_single h2]
                rfl
              · rw [mem_ite_nil_single h2]
                rfl
            · rw [mem_ite_nil_single h1]
              rfl
          all_goals
            by_cases h16 : bk.b16.isEmpty <;> by_cases hbf : bk.bbf.isEmpty <;>
              by_cases h32 : bk.b32.isEmpty <;>
              simp [h16, hbf, h32, mkCall, List.filter_append]

/-! ## Concrete sample values used by witnesses -/

def sampleT32 : Tensor := ⟨Dtype.f32, [2], [1, 2], false⟩

def sampleT16 : Tensor := ⟨Dtype.f16, [2], [3, 4], false⟩

def sampleP1 : Param := ⟨1, sampleT32, some ⟨Dtype.f32, [2], [5, 6], false⟩⟩

def sampleP2 : Param := ⟨2, sampleT16, some ⟨Dtype.f16, [2], [7, 8], false⟩⟩

def sampleP3 : Param := ⟨3, sampleT32, none⟩

def sampleGroup : ParamGroup :=
  ⟨[sampleP1, sampleP2, sampleP3], .num 1, true, (1, 2), 1, 0, none⟩

def sampleOpt : FusedAdam := ⟨1, false, false, [sampleGroup], none, [], 0⟩

def sampleOptC : FusedAdam := ⟨1, true, true, [sampleGroup], none, [], 0⟩

/-- Closed witness for C6. -/
theorem step_builds_masters_once_witness :
    (sampleOpt.step none none none none none none).opt.param_groups_master
      = some [⟨[none, none, none]⟩] := by
  rw [(step_builds_masters_once sampleOpt none none).1 rfl]
  decide

/-- Closed witness for C5. -/
theorem capturable_scaler_interaction_witness :
    (sampleOptC.step none none none none none
        (some ⟨1, 4⟩)).opt.dummy_overflow_buf = 1 :=
  ((capturable_scaler_interaction sampleOptC none (some ⟨1, 4⟩) rfl rfl).2.2
    (by decide)).2 ⟨1, 4⟩ rfl

/-- Closed witness for C1. -/
theorem one_launch_per_bucket_witness :
    ((processGroup false false 1 0 sampleGroup ⟨[none, none, none]⟩ [] 0 none).calls.filter
        (fun c => decide (c.prec = .p16))).length = 1 :=
  ((one_launch_per_bucket.2 false false 1 0 sampleGroup ⟨[none, none, none]⟩ [] 0 none
      (by decide)).2.1).trans (by decide)

/-! ## State-map lemmas -/

/-- `getOrInit` keeps every existing binding. -/
theorem getOrInit_preserve (st : StateMap) (p : Param) (q : Nat) (e : ParamState)
    (h : findSt st q = some e) : findSt (getOrInit st p).1 q = some e := by
  unfold getOrInit
  cases hf : findSt st p.pid with
  | some e2 => simpa using h
  | none =>
    simp only
    rw [findSt]
    split
    · next hpq =>
      rw [hpq] at hf
      rw [hf] at h
      exact absurd h (by simp)
    · exact h

/-- `getOrInit` does not touch other keys. -/
theorem getOrInit_other (st : StateMap) (p : Param) (q : Nat) (hq : q ≠ p.pid) :
    findSt (getOrInit st p).1 q = findSt st q := by
  unfold getOrInit
  cases hf : findSt st p.pid with
  | some e2 => simp
  | none =>
    simp only
    rw [findSt]
    split
    · next hpq => exact absurd hpq.symm hq
    · rfl

/-- After `getOrInit` the key is bound to the returned entry. -/
theorem getOrInit_self (st : StateMap) (p : Param) :
    findSt (getOrInit st p).1 p.pid = some (getOrInit st p).2 := by
  unfold getOrInit
  cases hf : findSt st p.pid with
  | some e2 => simpa using hf
  | none =>
    simp only
    rw [findSt]
    simp

/-- Fresh keys get the zero-initialised float32 entry. -/
theorem getOrInit_of_none (st : StateMap) (p : Param) (h : findSt st p.pid = none) :
    (getOrInit st p).2 = ⟨(zeros_like p.data).float, (zeros_like p.data).float⟩ := by
  simp [getOrInit, h]

/-- Existing keys are reused, not re-created. -/
theorem getOrInit_of_some (st : StateMap) (p : Param) (e : ParamState)
    (h : findSt st p.pid = some e) : getOrInit st p = (st, e) := by
  simp [getOrInit, h]

/-- The bucket loop keeps every existing state binding. -/
theorem buildBuckets_preserve (mw : Bool) :
    ∀ (l : List (Param × Option Tensor)) (st : StateMap) (bk : Buckets) (q : Nat)
      (e : ParamState), findSt st q = some e →
      findSt (buildBuckets mw l st bk).1 q = some e := by
  intro l
  induction l with
  | nil =>
    intro st bk q e h
    simpa [buildBuckets] using h
  | cons pr rest ih =>
    intro st bk q e h
    rcases pr with ⟨p, pm⟩
    rw [buildBuckets]
    cases hg : p.grad with
    | none => exact ih st bk q e h
    | some gr =>
      simp only
      by_cases hs : gr.is_sparse = true
      · rw [if_pos hs]
        exact h
      · rw [if_neg hs]
        have hpre := getOrInit_preserve st p q e h
        cases hd : p.data.dtype
        · exact ih _ _ q e hpre
        · exact ih _ _ q e hpre
        · exact ih _ _ q e hpre
        · exact hpre

/-- The bucket loop does not touch the key of a parameter that has no
gradient anywhere in the list. -/
theorem buildBuckets_untouched (mw : Bool) :
    ∀ (l : List (Param × Option Tensor)) (st : StateMap) (bk : Buckets) (q : Nat),
      (∀ pr ∈ l, pr.1.pid = q → pr.1.grad = none) →
      findSt (buildBuckets mw l st bk).1 q = findSt st q := by
  intro l
  induction l with
  | nil =>
    intro st bk q _
    simp [buildBuckets]
  | cons pr rest ih =>
    intro st bk q hnog
    rcases pr with ⟨p, pm⟩
    rw [buildBuckets]
    have hrest : ∀ pr ∈ rest, pr.1.pid = q → pr.1.grad = none :=
      fun pr hpr => hnog pr (List.mem_cons_of_mem _ hpr)
    cases hg : p.grad with
    | none => exact ih st bk q hrest
    | some gr =>
      simp only
      have hq : q ≠ p.pid := by
        intro hqe
        have := hnog (p, pm) (List.mem_cons_self _ _) hqe.symm
        rw [this] at hg
        exact absurd hg (by simp)
      by_cases hs : gr.is_sparse = true
      · rw [if_pos hs]
      · rw [if_neg hs]
        have hother := getOrInit_other st p q hq
        cases hd : p.data.dtype
        · exact (ih _ _ q hrest).trans hother
        · exact (ih _ _ q hrest).trans hother
        · exact (ih _ _ q hrest).trans hother
        · exact hother

/-- Characterisation of the per-parameter state after a non-raising bucket
loop: every parameter with a gradient ends up with an entry; a fresh entry
is the float32 zero pair shaped like the parameter, an existing entry is
kept as it was. -/
theorem buildBuckets_state_char (mw : Bool) :
    ∀ (l : List (Param × Option Tensor)) (st : StateMap) (bk : Buckets),
      (l.map (fun pr => pr.1.pid)).Nodup →
      (buildBuckets mw l st bk).2.2 = none →
      ∀ pr ∈ l, pr.1.grad ≠ none →
        ∃ e, findSt (buildBuckets mw l st bk).1 pr.1.pid = some e ∧
          (findSt st pr.1.pid = none →
            e = ⟨(zeros_like pr.1.data).float, (zeros_like pr.1.data).float⟩) ∧
          (∀ e0, findSt st pr.1.pid = some e0 → e = e0) := by
  intro l
  induction l with
  | nil =>
    intro st bk _ _ pr hpr
    simp at hpr
  | cons hd rest ih =>
    intro st bk hnd herr pr hpr hgr
    rcases hd with ⟨p, pm⟩
    rw [List.map_cons] at hnd
    have hnotin : p.pid ∉ rest.map (fun pr => pr.1.pid) := (List.nodup_cons.mp hnd).1
    have hndrest := (List.nodup_cons.mp hnd).2
    rw [buildBuckets] at herr ⊢
    cases hg : p.grad with
    | none =>
      rw [hg] at herr
      rcases List.mem_cons.mp hpr with rfl | hpr2
      · exact absurd hg hgr
      · exact ih st bk hndrest herr pr hpr2 hgr
    | some gr =>
      rw [hg] at herr
      simp only at herr ⊢
      by_cases hs : gr.is_sparse = true
      · rw [if_pos hs] at herr
        simp at herr
      · rw [if_neg hs] at herr ⊢
        have hself := getOrInit_self st p
        have hcase : pr = (p, pm) ∨ pr ∈ rest := List.mem_cons.mp hpr
        have key : ∀ bk' : Buckets,
            (buildBuckets mw rest (getOrInit st p).1 bk').2.2 = none →
            ∃ e, findSt (buildBuckets mw rest (getOrInit st p).1 bk').1 pr.1.pid
                = some e ∧
              (findSt st pr.1.pid = none →
                e = ⟨(zeros_like pr.1.data).float, (zeros_like pr.1.data).float⟩) ∧
              (∀ e0, findSt st pr.1.pid = some e0 → e = e0) := by
          intro bk' herr2
          rcases hcase with rfl | hpr2
          · refine ⟨(getOrInit st p).2, ?_, ?_, ?_⟩
            · exact buildBuckets_preserve mw rest _ _ _ _ hself
            · intro h0
              exact getOrInit_of_none st p h0
            · intro e0 h0
              rw [getOrInit_of_some st p e0 h0]
          · have hne : pr.1.pid ≠ p.pid := by
              intro he
              exact hnotin (he ▸ List.mem_map_of_mem _ hpr2)
            have htr := getOrInit_other st p pr.1.pid hne
            obtain ⟨e, he1, he2, he3⟩ := ih _ _ hndrest herr2 pr hpr2 hgr
            exact ⟨e, he1, fun h0 => he2 (htr.trans h0), fun e0 h0 => he3 e0 (htr.trans h0)⟩
        cases hd2 : p.data.dtype
        · rw [hd2] at herr
          exact key _ herr
        · rw [hd2] at herr
          exact key _ herr
        · rw [hd2] at herr
          exact key _ herr
        · rw [hd2] at herr
          simp at herr

/-- The pids of a zipped parameter list form a sublist of the group's pids. -/
theorem zip_pids_sublist : ∀ (l : List Param) (m : List (Option Tensor)),
    ((l.zip m).map (fun pr => pr.1.pid)).Sublist (l.map Param.pid) := by
  intro l
  induction l with
  | nil =>
    intro m
    simp
  | cons a l ih =>
    intro m
    cases m with
    | nil => simp
    | cons b m => simpa using (ih m).cons₂ a.pid

/-- The state leaving `processGroup` is exactly the state leaving its
bucket loop (or the incoming state for an empty group). -/
theorem processGroup_state (capt mw : Bool) (awm i : Nat) (g : ParamGroup)
    (gm : MasterGroup) (st : StateMap) (buf : Int) (sc : Option GradScaler) :
    (processGroup capt mw awm i g gm st buf sc).state =
      if g.params.isEmpty then st
      else (buildBuckets mw (g.params.zip gm.params) st emptyBuckets).1 := by
  unfold processGroup
  split
  · rfl
  · rcases hb : buildBuckets mw (g.params.zip gm.params) st emptyBuckets with ⟨st', bk, err⟩
    cases err
    · simp only [hb]
      split <;> rfl
    · simp only [hb]

/-- The error leaving `processGroup` is exactly the error leaving its
bucket loop (an empty group never raises). -/
theorem processGroup_err (capt mw : Bool) (awm i : Nat) (g : ParamGroup)
    (gm : MasterGroup) (st : StateMap) (buf : Int) (sc : Option GradScaler) :
    (processGroup capt mw awm i g gm st buf sc).err =
      if g.params.isEmpty then none
      else (buildBuckets mw (g.params.zip gm.params) st emptyBuckets).2.2 := by
  unfold processGroup
  split
  · rfl
  · rcases hb : buildBuckets mw (g.params.zip gm.params) st emptyBuckets with ⟨st', bk, err⟩
    cases err
    · simp only [hb]
      split <;> rfl
    · simp only [hb]

/-- `processGroup` keeps every existing state binding. -/
theorem processGroup_state_preserve (capt mw : Bool) (awm i : Nat) (g : ParamGroup)
    (gm : MasterGroup) (st : StateMap) (buf : Int) (sc : Option GradScaler)
    (q : Nat) (e : ParamState) (h : findSt st q = some e) :
    findSt (processGroup capt mw awm i g gm st buf sc).state q = some e := by
  rw [processGroup_state]
  split
  · exact h
  · exact buildBuckets_preserve mw _ st emptyBuckets q e h

/-- `processGroup` does not touch the state key of a parameter that has no
gradient anywhere in the group. -/
theorem processGroup_untouched (capt mw : Bool) (awm i : Nat) (g : ParamGroup)
    (gm : MasterGroup) (st : StateMap) (buf : Int) (sc : Option GradScaler)
    (q : Nat) (hnog : ∀ p ∈ g.params, p.pid = q → p.grad = none) :
    findSt (processGroup capt mw awm i g gm st buf sc).state q = findSt st q := by
  rw [processGroup_state]
  split
  · rfl
  · refine buildBuckets_untouched mw _ st emptyBuckets q ?_
    rintro ⟨a, b⟩ hpr hpid
    exact hnog a (List.of_mem_zip hpr).1 hpid

/-- `processGroup` version of `buildBuckets_state_char`. -/
theorem processGroup_state_char (capt mw : Bool) (awm i : Nat) (g : ParamGroup)
    (gm : MasterGroup) (st : StateMap) (buf : Int) (sc : Option GradScaler)
    (hnd : (g.params.map Param.pid).Nodup)
    (hok : (processGroup capt mw awm i g gm st buf sc).err = none) :
    ∀ pr ∈ g.params.zip gm.params, pr.1.grad ≠ none →
      ∃ e, findSt (processGroup capt mw awm i g gm st buf sc).state pr.1.pid = some e ∧
        (findSt st pr.1.pid = none →
          e = ⟨(zeros_like pr.1.data).float, (zeros_like pr.1.data).float⟩) ∧
        (∀ e0, findSt st pr.1.pid = some e0 → e = e0) := by
  intro pr hpr hgr
  by_cases hemp : g.params.isEmpty = true
  · rw [List.isEmpty_iff.mp hemp] at hpr
    simp at hpr
  · rw [processGroup_err, if_neg hemp] at hok
    rw [processGroup_state, if_neg hemp]
    have hznd : ((g.params.zip gm.params).map (fun pr => pr.1.pid)).Nodup :=
      List.Nodup.sublist (zip_pids_sublist g.params gm.params) hnd
    exact buildBuckets_state_char mw (g.params.zip gm.params) st emptyBuckets
      hznd hok pr hpr hgr

/-- All parameters in a zipped group list. -/
def allParamsZ (l : List (ParamGroup × MasterGroup)) : List Param :=
  l.flatMap (fun pr => pr.1.params)

/-- Their pids, with multiplicity. -/
def pidsZ (l : List (ParamGroup × MasterGroup)) : List Nat :=
  (allParamsZ l).map Param.pid

theorem pidsZ_cons (pr : ParamGroup × MasterGroup) (l : List (ParamGroup × MasterGroup)) :
    pidsZ (pr :: l) = pr.1.params.map Param.pid ++ pidsZ l := by
  simp [pidsZ, allParamsZ]

/-- The whole group loop keeps every existing state binding. -/
theorem processGroups_state_preserve (capt mw : Bool) (awm : Nat) (sc : Option GradScaler) :
    ∀ (l : List (ParamGroup × MasterGroup)) (i : Nat) (st : StateMap) (buf : Int)
      (q : Nat) (e : ParamState), findSt st q = some e →
      findSt (processGroups capt mw awm sc l i st buf).state q = some e := by
  intro l
  induction l with
  | nil =>
    intro i st buf q e h
    exact h
  | cons pr rest ih =>
    intro i st buf q e h
    rcases pr with ⟨g, gm⟩
    rw [processGroups]
    cases herr2 : (processGroup capt mw awm i g gm st buf sc).err with
    | some e2 => exact processGroup_state_preserve capt mw awm i g gm st buf sc q e h
    | none =>
      exact ih _ _ _ q e (processGroup_state_preserve capt mw awm i g gm st buf sc q e h)

/-- The whole group loop does not touch the key of a parameter that has no
gradient anywhere. -/
theorem processGroups_untouched (capt mw : Bool) (awm : Nat) (sc : Option GradScaler) :
    ∀ (l : List (ParamGroup × MasterGroup)) (i : Nat) (st : StateMap) (buf : Int)
      (q : Nat),
      (∀ pr ∈ l, ∀ p ∈ pr.1.params, p.pid = q → p.grad = none) →
      findSt (processGroups capt mw awm sc l i st buf).state q = findSt st q := by
  intro l
  induction l with
  | nil =>
    intro i st buf q _
    rfl
  | cons pr rest ih =>
    intro i st buf q hnog
    rcases pr with ⟨g, gm⟩
    have hhead : ∀ p ∈ g.params, p.pid = q → p.grad = none :=
      fun p hp => hnog (g, gm) (List.mem_cons_self _ _) p hp
    have hrest : ∀ pr ∈ rest, ∀ p ∈ pr.1.params, p.pid = q → p.grad = none :=
      fun pr hpr => hnog pr (List.mem_cons_of_mem _ hpr)
    rw [processGroups]
    cases herr2 : (processGroup capt mw awm i g gm st buf sc).err with
    | some e2 => exact processGroup_untouched capt mw awm i g gm st buf sc q hhead
    | none =>
      exact (ih _ _ _ q hrest).trans
        (processGroup_untouched capt mw awm i g gm st buf sc q hhead)

/-- Whole-loop version of the state characterisation: with globally unique
parameter identities and a non-raising run, every gradient-carrying
parameter of any processed group ends up with its entry — fresh entries
zero-initialised, existing entries untouched. -/
theorem processGroups_state_char (capt mw : Bool) (awm : Nat) (sc : Option GradScaler) :
    ∀ (l : List (ParamGroup × MasterGroup)) (i : Nat) (st : StateMap) (buf : Int),
      (pidsZ l).Nodup →
      (processGroups capt mw awm sc l i st buf).err = none →
      ∀ pr ∈ l, ∀ pp ∈ pr.1.params.zip pr.2.params, pp.1.grad ≠ none →
        ∃ e, findSt (processGroups capt mw awm sc l i st buf).state pp.1.pid = some e ∧
          (findSt st pp.1.pid = none →
            e = ⟨(zeros_like pp.1.data).float, (zeros_like pp.1.data).float⟩) ∧
          (∀ e0, findSt st pp.1.pid = some e0 → e = e0) := by
  intro l
  induction l with
  | nil =>
    intro i st buf _ _ pr hpr
    simp at hpr
  | cons hd rest ih =>
    intro i st buf hnd herr pr hpr pp hpp hgr
    rcases hd with ⟨g, gm⟩
    rw [pidsZ_cons] at hnd
    rw [List.nodup_append] at hnd
    obtain ⟨hnd1, hnd2, hdisj⟩ := hnd
    rw [processGroups] at herr ⊢
    cases herr2 : (processGroup capt mw awm i g gm st buf sc).err with
    | some e2 =>
      rw [herr2] at herr
      simp at herr
    | none =>
      rw [herr2] at herr
      simp only at herr
      rcases List.mem_cons.mp hpr with heq | hpr2
      · rw [heq] at hpp
        obtain ⟨e, he1, he2, he3⟩ :=
          processGroup_state_char capt mw awm i g gm st buf sc hnd1 herr2 pp hpp hgr
        exact ⟨e, processGroups_state_preserve capt mw awm sc rest _ _ _ _ e he1, he2, he3⟩
      · have hmemrest : pp.1.pid ∈ pidsZ rest := by
          have hmem : pp.1 ∈ allParamsZ rest := by
            unfold allParamsZ
            exact List.mem_flatMap.mpr ⟨pr, hpr2, (List.of_mem_zip hpp).1⟩
          exact List.mem_map_of_mem _ hmem
        have hq : ∀ p ∈ g.params, p.pid = pp.1.pid → p.grad = none := by
          intro p hp hpe
          exact absurd hmemrest (hdisj (hpe ▸ List.mem_map_of_mem _ hp))
        have htr := processGroup_untouched capt mw awm i g gm st buf sc pp.1.pid hq
        obtain ⟨e, he1, he2, he3⟩ := ih _ _ _ hnd2 herr pr hpr2 pp hpp hgr
        exact ⟨e, he1, fun h0 => he2 (htr.trans h0), fun e0 h0 => he3 e0 (htr.trans h0)⟩

/-- All parameters across the optimizer's groups. -/
def allParams (gs : List ParamGroup) : List Param :=
  gs.flatMap (fun g => g.params)

/-- Their pids, with multiplicity.  `Nodup` of this list models the Python
fact that distinct parameter objects are distinct dict keys. -/
def pidsOf (gs : List ParamGroup) : List Nat :=
  (allParams gs).map Param.pid

theorem pidsOf_cons (g : ParamGroup) (gs : List ParamGroup) :
    pidsOf (g :: gs) = g.params.map Param.pid ++ pidsOf gs := by
  simp [pidsOf, allParams]

/-- Group-level zip pids are a sublist of all pids. -/
theorem pidsZ_zip_sublist : ∀ (l : List ParamGroup) (m : List MasterGroup),
    (pidsZ (l.zip m)).Sublist (pidsOf l) := by
  intro l
  induction l with
  | nil =>
    intro m
    simp [pidsZ, allParamsZ, pidsOf, allParams]
  | cons g l ih =>
    intro m
    cases m with
    | nil => simp [pidsZ, allParamsZ, pidsOf, allParams]
    | cons gm m =>
      rw [List.zip_cons_cons, pidsZ_cons, pidsOf_cons]
      exact (List.Sublist.refl _).append (ih m)

/-- Membership on the left of a zip against a list at least as long. -/
theorem mem_zip_exists {α β : Type} : ∀ (l : List α) (m : List β),
    l.length ≤ m.length → ∀ x ∈ l, ∃ y, (x, y) ∈ l.zip m := by
  intro l
  induction l with
  | nil =>
    intro m _ x hx
    simp at hx
  | cons a l ih =>
    intro m hlen x hx
    cases m with
    | nil => simp at hlen
    | cons b m =>
      rcases List.mem_cons.mp hx with rfl | hx2
      · exact ⟨b, List.mem_cons_self _ _⟩
      · obtain ⟨y, hy⟩ := ih m (by simpa using hlen) x hx2
        exact ⟨y, List.mem_cons_of_mem _ hy⟩

/-- Lengths line up between the optimizer's groups and the master groups
`step` zips against (trivially true right after the first call builds the
masters). -/
def mastersAligned (o : FusedAdam) : Prop :=
  o.param_groups.length ≤ (mastersOf o).length ∧
    ∀ pr ∈ o.param_groups.zip (mastersOf o), pr.1.params.length ≤ pr.2.params.length

instance (o : FusedAdam) : Decidable (mastersAligned o) := by
  unfold mastersAligned
  infer_instance

/-! ## Claim C3: moment-buffer initialisation and reuse -/

/-- Claim C3: after a successful `step`, every parameter with a gradient
has its `exp_avg` / `exp_avg_sq` entry in `self.state`; if the entry did
not exist before the call it is the float32 zero pair shaped like the
parameter, and if it existed it is exactly the old entry (reused, not
re-created). -/
theorem state_entries_init_and_reuse (o : FusedAdam) (closure : Option Unit)
    (sc : Option GradScaler)
    (hnd : (pidsOf o.param_groups).Nodup)
    (hma : mastersAligned o)
    (hok : (o.step closure none none none none sc).res = .ok ())
    (g : ParamGroup) (hg : g ∈ o.param_groups) (p : Param) (hp : p ∈ g.params)
    (hgrad : p.grad ≠ none) :
    ∃ e, findSt (o.step closure none none none none sc).opt.state p.pid = some e ∧
      (findSt o.state p.pid = none →
        e = ⟨(zeros_like p.data).float, (zeros_like p.data).float⟩) ∧
      (∀ e0, findSt o.state p.pid = some e0 → e = e0) := by
  have herr := (step_res_ok_iff o closure sc).mp hok
  obtain ⟨gm, hgm⟩ := mem_zip_exists o.param_groups (mastersOf o) hma.1 g hg
  obtain ⟨pm, hpm⟩ := mem_zip_exists g.params gm.params (hma.2 (g, gm) hgm) p hp
  have hndz : (pidsZ (o.param_groups.zip (mastersOf o))).Nodup :=
    List.Nodup.sublist (pidsZ_zip_sublist o.param_groups (mastersOf o)) hnd
  have hchar := processGroups_state_char o.capturable o.master_weights o.adam_w_mode sc
    (o.param_groups.zip (mastersOf o)) 0 o.state o.dummy_overflow_buf hndz herr
    (g, gm) hgm (p, pm) hpm hgrad
  rw [step_state_eq]
  exact hchar

/-- Closed witness for C3. -/
theorem state_entries_init_witness :
    ∃ e, findSt (sampleOpt.step none none none none none none).opt.state 1 = some e ∧
      (findSt sampleOpt.state 1 = none →
        e = ⟨(zeros_like sampleP1.data).float, (zeros_like sampleP1.data).float⟩) ∧
      (∀ e0, findSt sampleOpt.state 1 = some e0 → e = e0) :=
  state_entries_init_and_reuse sampleOpt none none (by decide) (by decide) rfl
    sampleGroup (by decide) sampleP1 (by decide) (by decide)

/-- `processGroup` never changes the group's parameter list. -/
theorem processGroup_params (capt mw : Bool) (awm i : Nat) (g : ParamGroup)
    (gm : MasterGroup) (st : StateMap) (buf : Int) (sc : Option GradScaler) :
    (processGroup capt mw awm i g gm st buf sc).group.params = g.params := by
  rw [processGroup_group]
  split <;> rfl

/-- The group loop never changes any group's parameter list. -/
theorem processGroups_params (capt mw : Bool) (awm : Nat) (sc : Option GradScaler) :
    ∀ (l : List (ParamGroup × MasterGroup)) (i : Nat) (st : StateMap) (buf : Int),
      (processGroups capt mw awm sc l i st buf).groups.map (fun g => g.params)
        = l.map (fun pr => pr.1.params) := by
  intro l
  induction l with
  | nil =>
    intro i st buf
    rfl
  | cons pr rest ih =>
    intro i st buf
    rcases pr with ⟨g, gm⟩
    rw [processGroups]
    cases herr2 : (processGroup capt mw awm i g gm st buf sc).err with
    | some e2 =>
      simp only [List.map_cons, List.map_map]
      rw [processGroup_params]
      rfl
    | none =>
      simp only [List.map_cons]
      rw [processGroup_params, ih]

/-- Splitting a list at a zip boundary leaves its mapped image unchanged. -/
theorem zip_params_cover {α β γ : Type} (f : α → γ) :
    ∀ (l : List α) (m : List β),
      ((l.zip m).map (fun pr => f pr.1)) ++ (l.drop (l.zip m).length).map f
        = l.map f := by
  intro l
  induction l with
  | nil =>
    intro m
    simp
  | cons a l ih =>
    intro m
    cases m with
    | nil => simp
    | cons b m =>
      rw [List.zip_cons_cons, List.map_cons, List.length_cons]
      simpa using ih m

/-- `step` leaves every group's parameter list (hence every parameter's
`data`) untouched: only the native kernels, outside this file, write to
parameters. -/
theorem step_params_eq (o : FusedAdam) (closure : Option Unit) (sc : Option GradScaler) :
    (o.step closure none none none none sc).opt.param_groups.map (fun g => g.params)
      = o.param_groups.map (fun g => g.params) := by
  have h1 : (o.step closure none none none none sc).opt.param_groups =
      (processGroups o.capturable o.master_weights o.adam_w_mode sc
        (o.param_groups.zip (mastersOf o)) 0 o.state o.dummy_overflow_buf).groups ++
      o.param_groups.drop (o.param_groups.zip (mastersOf o)).length := by
    simp [FusedAdam.step]
  rw [h1, List.map_append, processGroups_params]
  exact zip_params_cover (fun g => g.params) o.param_groups (mastersOf o)

/-- Every entry in the buckets leaving the bucket loop is either inherited
from the incoming buckets or comes from a listed parameter that carries a
gradient. -/
theorem buildBuckets_entry_src (mw : Bool) :
    ∀ (l : List (Param × Option Tensor)) (st : StateMap) (bk : Buckets) (e2 : BEntry),
      (e2 ∈ (buildBuckets mw l st bk).2.1.b16 ∨
       e2 ∈ (buildBuckets mw l st bk).2.1.bbf ∨
       e2 ∈ (buildBuckets mw l st bk).2.1.b32) →
      (e2 ∈ bk.b16 ∨ e2 ∈ bk.bbf ∨ e2 ∈ bk.b32) ∨
      ∃ pr ∈ l, pr.1.pid = e2.pid ∧ pr.1.grad ≠ none := by
  intro l
  induction l with
  | nil =>
    intro st bk e2 h
    exact Or.inl h
  | cons hd rest ih =>
    intro st bk e2 h
    rcases hd with ⟨p, pm⟩
    rw [buildBuckets] at h
    have hweak : (∃ pr ∈ rest, pr.1.pid = e2.pid ∧ pr.1.grad ≠ none) →
        ∃ pr ∈ (p, pm) :: rest, pr.1.pid = e2.pid ∧ pr.1.grad ≠ none := by
      rintro ⟨pr, hpr, hpe, hgr⟩
      exact ⟨pr, List.mem_cons_of_mem _ hpr, hpe, hgr⟩
    cases hg : p.grad with
    | none =>
      rw [hg] at h
      rcases ih st bk e2 h with hacc | hsrc
      · exact Or.inl hacc
      · exact Or.inr (hweak hsrc)
    | some gr =>
      rw [hg] at h
      simp only at h
      by_cases hs : gr.is_sparse = true
      · rw [if_pos hs] at h
        exact Or.inl h
      · rw [if_neg hs] at h
        have hhead : ∀ bk2 : Buckets,
            (e2 ∈ bk2.b16 ∨ e2 ∈ bk2.bbf ∨ e2 ∈ bk2.b32) →
            (bk2.b16 = bk.b16 ++ [⟨p.pid, gr, p.data, (getOrInit st p).2.exp_avg,
                (getOrInit st p).2.exp_avg_sq, if mw then pm else none⟩] ∧
              bk2.bbf = bk.bbf ∧ bk2.b32 = bk.b32) ∨
            (bk2.bbf = bk.bbf ++ [⟨p.pid, gr, p.data, (getOrInit st p).2.exp_avg,
                (getOrInit st p).2.exp_avg_sq, if mw then pm else none⟩] ∧
              bk2.b16 = bk.b16 ∧ bk2.b32 = bk.b32) ∨
            (bk2.b32 = bk.b32 ++ [⟨p.pid, gr, p.data, (getOrInit st p).2.exp_avg,
                (getOrInit st p).2.exp_avg_sq, if mw then pm else none⟩] ∧
              bk2.b16 = bk.b16 ∧ bk2.bbf = bk.bbf) →
            (e2 ∈ bk.b16 ∨ e2 ∈ bk.bbf ∨ e2 ∈ bk.b32) ∨
            ∃ pr ∈ (p, pm) :: rest, pr.1.pid = e2.pid ∧ pr.1.grad ≠ none := by
          rintro bk2 hmem (⟨hb1, hb2, hb3⟩ | ⟨hb1, hb2, hb3⟩ | ⟨hb1, hb2, hb3⟩) <;>
            rw [hb1, hb2, hb3] at hmem
          · rcases hmem with hm | hm | hm
            · rcases List.mem_append.mp hm with hm2 | hm2
              · exact Or.inl (Or.inl hm2)
              · refine Or.inr ⟨(p, pm), List.mem_cons_self _ _, ?_, by simp [hg]⟩
                rw [List.mem_singleton.mp hm2]
            · exact Or.inl (Or.inr (Or.inl hm))
            · exact Or.inl (Or.inr (Or.inr hm))
          · rcases hmem with hm | hm | hm
            · exact Or.inl (Or.inl hm)
            · rcases List.mem_append.mp hm with hm2 | hm2
              · exact Or.inl (Or.inr (Or.inl hm2))
              · refine Or.inr ⟨(p, pm), List.mem_cons_self _ _, ?_, by simp [hg]⟩
                rw [List.mem_singleton.mp hm2]
            · exact Or.inl (Or.inr (Or.inr hm))
          · rcases hmem with hm | hm | hm
            · exact Or.inl (Or.inl hm)
            · exact Or.inl (Or.inr (Or.inl hm))
            · rcases List.mem_append.mp hm with hm2 | hm2
              · exact Or.inl (Or.inr (Or.inr hm2))
              · refine Or.inr ⟨(p, pm), List.mem_cons_self _ _, ?_, by simp [hg]⟩
                rw [List.mem_singleton.mp hm2]
        cases hd2 : p.data.dtype
        · rw [hd2] at h
          rcases ih _ _ e2 h with hacc | hsrc
          · exact hhead _ hacc (Or.inl ⟨rfl, rfl, rfl⟩)
          · exact Or.inr (hweak hsrc)
        · rw [hd2] at h
          rcases ih _ _ e2 h with hacc | hsrc
          · exact hhead _ hacc (Or.inr (Or.inl ⟨rfl, rfl, rfl⟩))
          · exact Or.inr (hweak hsrc)
        · rw [hd2] at h
          rcases ih _ _ e2 h with hacc | hsrc
          · exact hhead _ hacc (Or.inr (Or.inr ⟨rfl, rfl, rfl⟩))
          · exact Or.inr (hweak hsrc)
        · rw [hd2] at h
          exact Or.inl h

/-- Every pid a group passes to a kernel belongs to one of the group's
parameters that carries a gradient. -/
theorem processGroup_calls_pids (capt mw : Bool) (awm i : Nat) (g : ParamGroup)
    (gm : MasterGroup) (st : StateMap) (buf : Int) (sc : Option GradScaler) :
    ∀ c ∈ (processGroup capt mw awm i g gm st buf sc).calls, ∀ q ∈ c.pids,
      ∃ p2 ∈ g.params, p2.pid = q ∧ p2.grad ≠ none := by
  intro c hc q hq
  unfold processGroup at hc
  split at hc
  · simp at hc
  · rcases hb : buildBuckets mw (g.params.zip gm.params) st emptyBuckets with ⟨st', bk, err⟩
    rw [hb] at hc
    cases err with
    | some e => simp at hc
    | none =>
      simp only at hc
      have hsrc : ∀ e2 : BEntry, (e2 ∈ bk.b16 ∨ e2 ∈ bk.bbf ∨ e2 ∈ bk.b32) →
          ∃ p2 ∈ g.params, p2.pid = e2.pid ∧ p2.grad ≠ none := by
        intro e2 hmem
        have hpv := buildBuckets_entry_src mw (g.params.zip gm.params) st emptyBuckets e2
          (by rw [hb]; exact hmem)
        rcases hpv with hacc | hsrc2
        · simp [emptyBuckets] at hacc
        · obtain ⟨⟨a, b⟩, hpr, hpe, hgr⟩ := hsrc2
          exact ⟨a, (List.of_mem_zip hpr).1, hpe, hgr⟩
      split at hc
      · rcases List.mem_append.mp hc with h1 | h1
        · rcases List.mem_append.mp h1 with h2 | h2
          · rw [mem_ite_nil_single h2] at hq
            simp [mkCall] at hq
            obtain ⟨e2, he2, hpe⟩ := hq
            obtain ⟨p2, hp2, hpe2, hgr⟩ := hsrc e2 (Or.inl he2)
            exact ⟨p2, hp2, hpe2.trans hpe, hgr⟩
          · rw [mem_ite_nil_single h2] at hq
            simp [mkCall] at hq
            obtain ⟨e2, he2, hpe⟩ := hq
            obtain ⟨p2, hp2, hpe2, hgr⟩ := hsrc e2 (Or.inr (Or.inl he2))
            exact ⟨p2, hp2, hpe2.trans hpe, hgr⟩
        · rw [mem_ite_nil_single h1] at hq
          simp [mkCall] at hq
          obtain ⟨e2, he2, hpe⟩ := hq
          obtain ⟨p2, hp2, hpe2, hgr⟩ := hsrc e2 (Or.inr (Or.inr he2))
          exact ⟨p2, hp2, hpe2.trans hpe, hgr⟩
      · rcases List.mem_append.mp hc with h1 | h1
        · rcases List.mem_append.mp h1 with h2 | h2
          · rw [mem_ite_nil_single h2] at hq
            simp [mkCall] at hq
            obtain ⟨e2, he2, hpe⟩ := hq
            obtain ⟨p2, hp2, hpe2, hgr⟩ := hsrc e2 (Or.inl he2)
            exact ⟨p2, hp2, hpe2.trans hpe, hgr⟩
          · rw [mem_ite_nil_single h2] at hq
            simp [mkCall] at hq
            obtain ⟨e2, he2, hpe⟩ := hq
            obtain ⟨p2, hp2, hpe2, hgr⟩ := hsrc e2 (Or.inr (Or.inl he2))
            exact ⟨p2, hp2, hpe2.trans hpe, hgr⟩
        · rw [mem_ite_nil_single h1] at hq
          simp [mkCall] at hq
          obtain ⟨e2, he2, hpe⟩ := hq
          obtain ⟨p2, hp2, hpe2, hgr⟩ := hsrc e2 (Or.inr (Or.inr he2))
          exact ⟨p2, hp2, hpe2.trans hpe, hgr⟩

/-- Every pid the whole loop passes to a kernel belongs to a listed
gradient-carrying parameter. -/
theorem processGroups_calls_pids (capt mw : Bool) (awm : Nat) (sc : Option GradScaler) :
    ∀ (l : List (ParamGroup × MasterGroup)) (i : Nat) (st : StateMap) (buf : Int),
      ∀ c ∈ (processGroups capt mw awm sc l i st buf).calls, ∀ q ∈ c.pids,
        ∃ pr ∈ l, ∃ p2 ∈ pr.1.params, p2.pid = q ∧ p2.grad ≠ none := by
  intro l
  induction l with
  | nil =>
    intro i st buf c hc
    simp [processGroups] at hc
  | cons pr rest ih =>
    intro i st buf c hc q hq
    rcases pr with ⟨g, gm⟩
    rw [processGroups] at hc
    cases herr2 : (processGroup capt mw awm i g gm st buf sc).err with
    | some e =>
      rw [herr2] at hc
      simp only at hc
      obtain ⟨p2, hp2, hpe, hgr⟩ := processGroup_calls_pids capt mw awm i g gm st buf sc c hc q hq
      exact ⟨(g, gm), List.mem_cons_self _ _, p2, hp2, hpe, hgr⟩
    | none =>
      rw [herr2] at hc
      simp only at hc
      rcases List.mem_append.mp hc with h1 | h1
      · obtain ⟨p2, hp2, hpe, hgr⟩ := processGroup_calls_pids capt mw awm i g gm st buf sc c h1 q hq
        exact ⟨(g, gm), List.mem_cons_self _ _, p2, hp2, hpe, hgr⟩
      · obtain ⟨pr2, hpr2, p2, hp2, hpe, hgr⟩ := ih _ _ _ c h1 q hq
        exact ⟨pr2, List.mem_cons_of_mem _ hpr2, p2, hp2, hpe, hgr⟩

/-! ## Claim C10: parameters without gradients are left alone -/

/-- Claim C10: a parameter whose grad is `None` is skipped: no parameter
data is written by the Python code (group parameter lists are unchanged),
its `self.state` key is neither created nor modified, and its tensors are
not passed to any native kernel. -/
theorem grad_none_frame (o : FusedAdam) (closure : Option Unit) (sc : Option GradScaler)
    (hnd : (pidsOf o.param_groups).Nodup)
    (g : ParamGroup) (hg : g ∈ o.param_groups) (p : Param) (hp : p ∈ g.params)
    (hgrad : p.grad = none) :
    ((o.step closure none none none none sc).opt.param_groups.map (fun g2 => g2.params)
        = o.param_groups.map (fun g2 => g2.params)) ∧
    findSt (o.step closure none none none none sc).opt.state p.pid
        = findSt o.state p.pid ∧
    (∀ c ∈ (o.step closure none none none none sc).calls, p.pid ∉ c.pids) := by
  have hpall : p ∈ allParams o.param_groups := by
    unfold allParams
    exact List.mem_flatMap.mpr ⟨g, hg, hp⟩
  have hnd2 : (List.map Param.pid (allParams o.param_groups)).Nodup := hnd
  have huniq := List.inj_on_of_nodup_map hnd2
  refine ⟨step_params_eq o closure sc, ?_, ?_⟩
  · rw [step_state_eq]
    refine processGroups_untouched o.capturable o.master_weights o.adam_w_mode sc _ 0
      o.state o.dummy_overflow_buf p.pid ?_
    rintro ⟨g2, gm2⟩ hpr p2 hp2 hpe
    have hp2all : p2 ∈ allParams o.param_groups := by
      unfold allParams
      exact List.mem_flatMap.mpr ⟨g2, (List.of_mem_zip hpr).1, hp2⟩
    have heq := huniq hp2all hpall hpe
    rw [heq]
    exact hgrad
  · intro c hc hmem
    rw [step_calls_eq] at hc
    obtain ⟨⟨g2, gm2⟩, hpr, p2, hp2, hpe, hgr⟩ :=
      processGroups_calls_pids o.capturable o.master_weights o.adam_w_mode sc _ 0
        o.state o.dummy_overflow_buf c hc p.pid hmem
    have hp2all : p2 ∈ allParams o.param_groups := by
      unfold allParams
      exact List.mem_flatMap.mpr ⟨g2, (List.of_mem_zip hpr).1, hp2⟩
    have heq := huniq hp2all hpall hpe
    rw [heq, hgrad] at hgr
    exact hgr rfl

/-- Closed witness for C10. -/
theorem grad_none_frame_witness :
    ((sampleOpt.step none none none none none none).opt.param_groups.map
        (fun g2 => g2.params) = sampleOpt.param_groups.map (fun g2 => g2.params)) ∧
    findSt (sampleOpt.step none none none none none none).opt.state 3
        = findSt sampleOpt.state 3 ∧
    (∀ c ∈ (sampleOpt.step none none none none none none).calls, 3 ∉ c.pids) :=
  grad_none_frame sampleOpt none none (by decide) sampleGroup (by decide) sampleP3
    (by decide) rfl

/-- Selector describing which parameters land in the bucket of dtype `q`:
those with a non-`None`, non-sparse gradient whose data has dtype `q`; the
selected payload is (identity, gradient, data). -/
def bucketSel (q : Dtype) (pr : Param × Option Tensor) : Option (Nat × Tensor × Tensor) :=
  match pr.1.grad with
  | some gr =>
    if gr.is_sparse = false ∧ pr.1.data.dtype = q then some (pr.1.pid, gr, pr.1.data)
    else none
  | none => none

/-- The bucket loop finishes without raising iff every gradient present is
non-sparse and of a supported dtype. -/
theorem buildBuckets_err_none_iff (mw : Bool) :
    ∀ (l : List (Param × Option Tensor)) (st : StateMap) (bk : Buckets),
      (buildBuckets mw l st bk).2.2 = none ↔
        ∀ pr ∈ l, ∀ gr, pr.1.grad = some gr →
          gr.is_sparse = false ∧ pr.1.data.dtype ≠ .other := by
  intro l
  induction l with
  | nil =>
    intro st bk
    simp [buildBuckets]
  | cons hd rest ih =>
    intro st bk
    rcases hd with ⟨p, pm⟩
    rw [buildBuckets]
    cases hg : p.grad with
    | none =>
      rw [ih st bk]
      constructor
      · intro h pr hpr gr hgr
        rcases List.mem_cons.mp hpr with rfl | hpr2
        · rw [hg] at hgr
          exact absurd hgr (by simp)
        · exact h pr hpr2 gr hgr
      · intro h pr hpr gr hgr
        exact h pr (List.mem_cons_of_mem _ hpr) gr hgr
    | some gr =>
      simp only
      by_cases hs : gr.is_sparse = true
      · rw [if_pos hs]
        constructor
        · intro h
          simp at h
        · intro h
          have := (h (p, pm) (List.mem_cons_self _ _) gr hg).1
          rw [this] at hs
          exact absurd hs (by simp)
      · rw [if_neg hs]
        have hs2 : gr.is_sparse = false := by
          cases hsv : gr.is_sparse
          · rfl
          · exact absurd hsv hs
        cases hd2 : p.data.dtype
        · rw [ih _ _]
          constructor
          · intro h pr hpr gr2 hgr2
            rcases List.mem_cons.mp hpr with rfl | hpr2
            · rw [hg] at hgr2
              cases hgr2
              exact ⟨hs2, by rw [hd2]; simp⟩
            · exact h pr hpr2 gr2 hgr2
          · intro h pr hpr gr2 hgr2
            exact h pr (List.mem_cons_of_mem _ hpr) gr2 hgr2
        · rw [ih _ _]
          constructor
          · intro h pr hpr gr2 hgr2
            rcases List.mem_cons.mp hpr with rfl | hpr2
            · rw [hg] at hgr2
              cases hgr2
              exact ⟨hs2, by rw [hd2]; simp⟩
            · exact h pr hpr2 gr2 hgr2
          · intro h pr hpr gr2 hgr2
            exact h pr (List.mem_cons_of_mem _ hpr) gr2 hgr2
        · rw [ih _ _]
          constructor
          · intro h pr hpr gr2 hgr2
            rcases List.mem_cons.mp hpr with rfl | hpr2
            · rw [hg] at hgr2
              cases hgr2
              exact ⟨hs2, by rw [hd2]; simp⟩
            · exact h pr hpr2 gr2 hgr2
          · intro h pr hpr gr2 hgr2
            exact h pr (List.mem_cons_of_mem _ hpr) gr2 hgr2
        · constructor
          · intro h
            simp at h
          · intro h
            have := (h (p, pm) (List.mem_cons_self _ _) gr hg).2
            exact absurd hd2 this

/-- With no sparse gradient in the way, a parameter of unsupported dtype
makes the bucket loop raise exactly the fp16/fp32 message. -/
theorem buildBuckets_dtype_err (mw : Bool) :
    ∀ (l : List (Param × Option Tensor)) (st : StateMap) (bk : Buckets),
      (∀ pr ∈ l, ∀ gr, pr.1.grad = some gr → gr.is_sparse = false) →
      (∃ pr ∈ l, ∃ gr, pr.1.grad = some gr ∧ pr.1.data.dtype = .other) →
      (buildBuckets mw l st bk).2.2 = some dtypeMsg := by
  intro l
  induction l with
  | nil =>
    intro st bk _ hex
    obtain ⟨pr, hpr, _⟩ := hex
    simp at hpr
  | cons hd rest ih =>
    intro st bk hns hex
    rcases hd with ⟨p, pm⟩
    have hnsrest : ∀ pr ∈ rest, ∀ gr, pr.1.grad = some gr → gr.is_sparse = false :=
      fun pr hpr => hns pr (List.mem_cons_of_mem _ hpr)
    rw [buildBuckets]
    cases hg : p.grad with
    | none =>
      refine ih st bk hnsrest ?_
      obtain ⟨pr, hpr, gr, hgr, hdt⟩ := hex
      rcases List.mem_cons.mp hpr with rfl | hpr2
      · rw [hg] at hgr
        exact absurd hgr (by simp)
      · exact ⟨pr, hpr2, gr, hgr, hdt⟩
    | some gr =>
      simp only
      have hs2 : gr.is_sparse = false := hns (p, pm) (List.mem_cons_self _ _) gr hg
      rw [if_neg (by rw [hs2]; simp)]
      cases hd2 : p.data.dtype
      · refine ih _ _ hnsrest ?_
        obtain ⟨pr, hpr, gr2, hgr2, hdt⟩ := hex
        rcases List.mem_cons.mp hpr with rfl | hpr2
        · rw [hg] at hgr2
          cases hgr2
          rw [hd2] at hdt
          exact absurd hdt (by simp)
        · exact ⟨pr, hpr2, gr2, hgr2, hdt⟩
      · refine ih _ _ hnsrest ?_
        obtain ⟨pr, hpr, gr2, hgr2, hdt⟩ := hex
        rcases List.mem_cons.mp hpr with rfl | hpr2
        · rw [hg] at hgr2
          cases hgr2
          rw [hd2] at hdt
          exact absurd hdt (by simp)
        · exact ⟨pr, hpr2, gr2, hgr2, hdt⟩
      · refine ih _ _ hnsrest ?_
        obtain ⟨pr, hpr, gr2, hgr2, hdt⟩ := hex
        rcases List.mem_cons.mp hpr with rfl | hpr2
        · rw [hg] at hgr2
          cases hgr2
          rw [hd2] at hdt
          exact absurd hdt (by simp)
        · exact ⟨pr, hpr2, gr2, hgr2, hdt⟩
      · rfl

/-- Functional characterisation of the bucket contents: on a non-raising
run, each bucket holds (in order) exactly the identities, gradients and
data of the parameters its dtype selects. -/
theorem buildBuckets_bucket_char (mw : Bool) :
    ∀ (l : List (Param × Option Tensor)) (st : StateMap) (bk : Buckets),
      (buildBuckets mw l st bk).2.2 = none →
      (buildBuckets mw l st bk).2.1.b16.map (fun e => (e.pid, e.g, e.p))
          = bk.b16.map (fun e => (e.pid, e.g, e.p)) ++ l.filterMap (bucketSel .f16) ∧
      (buildBuckets mw l st bk).2.1.bbf.map (fun e => (e.pid, e.g, e.p))
          = bk.bbf.map (fun e => (e.pid, e.g, e.p)) ++ l.filterMap (bucketSel .bf16) ∧
      (buildBuckets mw l st bk).2.1.b32.map (fun e => (e.pid, e.g, e.p))
          = bk.b32.map (fun e => (e.pid, e.g, e.p)) ++ l.filterMap (bucketSel .f32) := by
  intro l
  induction l with
  | nil =>
    intro st bk _
    simp [buildBuckets]
  | cons hd rest ih =>
    intro st bk herr
    rcases hd with ⟨p, pm⟩
    rw [buildBuckets] at herr ⊢
    cases hg : p.grad with
    | none =>
      rw [hg] at herr
      have hsel : ∀ q, bucketSel q (p, pm) = none := by
        intro q
        simp [bucketSel, hg]
      rw [List.filterMap_cons, List.filterMap_cons, List.filterMap_cons]
      rw [hsel, hsel, hsel]
      exact ih st bk herr
    | some gr =>
      rw [hg] at herr
      simp only at herr ⊢
      by_cases hs : gr.is_sparse = true
      · rw [if_pos hs] at herr
        simp at herr
      · rw [if_neg hs] at herr ⊢
        have hs2 : gr.is_sparse = false := by
          cases hsv : gr.is_sparse
          · rfl
          · exact absurd hsv hs
        cases hd2 : p.data.dtype
        · rw [hd2] at herr
          obtain ⟨h16, hbf, h32⟩ := ih _ _ herr
          refine ⟨?_, ?_, ?_⟩
          · rw [h16]
            rw [List.filterMap_cons]
            have : bucketSel .f16 (p, pm) = some (p.pid, gr, p.data) := by
              simp [bucketSel, hg, hs2, hd2]
            rw [this]
            simp
          · rw [hbf]
            rw [List.filterMap_cons]
            have : bucketSel .bf16 (p, pm) = none := by
              simp [bucketSel, hg, hs2, hd2]
            rw [this]
          · rw [h32]
            rw [List.filterMap_cons]
            have : bucketSel .f32 (p, pm) = none := by
              simp [bucketSel, hg, hs2, hd2]
            rw [this]
        · rw [hd2] at herr
          obtain ⟨h16, hbf, h32⟩ := ih _ _ herr
          refine ⟨?_, ?_, ?_⟩
          · rw [h16]
            rw [List.filterMap_cons]
            have : bucketSel .f16 (p, pm) = none := by
              simp [bucketSel, hg, hs2, hd2]
            rw [this]
          · rw [hbf]
            rw [List.filterMap_cons]
            have : bucketSel .bf16 (p, pm) = some (p.pid, gr, p.data) := by
              simp [bucketSel, hg, hs2, hd2]
            rw [this]
            simp
          · rw [h32]
            rw [List.filterMap_cons]
            have : bucketSel .f32 (p, pm) = none := by
              simp [bucketSel, hg, hs2, hd2]
            rw [this]
        · rw [hd2] at herr
          obtain ⟨h16, hbf, h32⟩ := ih _ _ herr
          refine ⟨?_, ?_, ?_⟩
          · rw [h16]
            rw [List.filterMap_cons]
            have : bucketSel .f16 (p, pm) = none := by
              simp [bucketSel, hg, hs2, hd2]
            rw [this]
          · rw [hbf]
            rw [List.filterMap_cons]
            have : bucketSel .bf16 (p, pm) = none := by
              simp [bucketSel, hg, hs2, hd2]
            rw [this]
          · rw [h32]
            rw [List.filterMap_cons]
            have : bucketSel .f32 (p, pm) = some (p.pid, gr, p.data) := by
              simp [bucketSel, hg, hs2, hd2]
            rw [this]
            simp
        · rw [hd2] at herr
          simp at herr

/-- Every bucket entry's moment tensors are exactly the `exp_avg` /
`exp_avg_sq` of the state entry stored (by the end of the loop) under the
entry's pid (provided the incoming accumulator already satisfies this,
e.g. when it is empty). -/
theorem buildBuckets_entries_state (mw : Bool) :
    ∀ (l : List (Param × Option Tensor)) (st : StateMap) (bk : Buckets),
      (∀ e2, (e2 ∈ bk.b16 ∨ e2 ∈ bk.bbf ∨ e2 ∈ bk.b32) →
        ∃ s, findSt st e2.pid = some s ∧ s.exp_avg = e2.m ∧ s.exp_avg_sq = e2.v) →
      ∀ e2, (e2 ∈ (buildBuckets mw l st bk).2.1.b16 ∨
             e2 ∈ (buildBuckets mw l st bk).2.1.bbf ∨
             e2 ∈ (buildBuckets mw l st bk).2.1.b32) →
        ∃ s, findSt (buildBuckets mw l st bk).1 e2.pid = some s ∧
          s.exp_avg = e2.m ∧ s.exp_avg_sq = e2.v := by
  intro l
  induction l with
  | nil =>
    intro st bk hinv e2 hmem
    exact hinv e2 hmem
  | cons hd rest ih =>
    intro st bk hinv e2 hmem
    rcases hd with ⟨p, pm⟩
    rw [buildBuckets] at hmem ⊢
    cases hg : p.grad with
    | none =>
      rw [hg] at hmem
      exact ih st bk hinv e2 hmem
    | some gr =>
      rw [hg] at hmem
      simp only at hmem ⊢
      by_cases hs : gr.is_sparse = true
      · rw [if_pos hs] at hmem ⊢
        exact hinv e2 hmem
      · rw [if_neg hs] at hmem ⊢
        have hinv2 : ∀ be0 : BEntry,
            (be0.pid = p.pid ∧ be0.m = (getOrInit st p).2.exp_avg ∧
              be0.v = (getOrInit st p).2.exp_avg_sq) ∨
            (be0 ∈ bk.b16 ∨ be0 ∈ bk.bbf ∨ be0 ∈ bk.b32) →
            ∃ s, findSt (getOrInit st p).1 be0.pid = some s ∧
              s.exp_avg = be0.m ∧ s.exp_avg_sq = be0.v := by
          rintro be0 (⟨hpid, hm, hv⟩ | hold)
          · refine ⟨(getOrInit st p).2, ?_, hm.symm, hv.symm⟩
            rw [hpid]
            exact getOrInit_self st p
          · obtain ⟨s, hs1, hs2, hs3⟩ := hinv be0 hold
            exact ⟨s, getOrInit_preserve st p be0.pid s hs1, hs2, hs3⟩
        cases hd2 : p.data.dtype
        · rw [hd2] at hmem
          refine ih _ _ ?_ e2 hmem
          rintro be0 (hb | hb | hb)
          · rcases List.mem_append.mp hb with hb2 | hb2
            · exact hinv2 be0 (Or.inr (Or.inl hb2))
            · rw [List.mem_singleton.mp hb2]
              exact hinv2 _ (Or.inl ⟨rfl, rfl, rfl⟩)
          · exact hinv2 be0 (Or.inr (Or.inr (Or.inl hb)))
          · exact hinv2 be0 (Or.inr (Or.inr (Or.inr hb)))
        · rw [hd2] at hmem
          refine ih _ _ ?_ e2 hmem
          rintro be0 (hb | hb | hb)
          · exact hinv2 be0 (Or.inr (Or.inl hb))
          · rcases List.mem_append.mp hb with hb2 | hb2
            · exact hinv2 be0 (Or.inr (Or.inr (Or.inl hb2)))
            · rw [List.mem_singleton.mp hb2]
              exact hinv2 _ (Or.inl ⟨rfl, rfl, rfl⟩)
          · exact hinv2 be0 (Or.inr (Or.inr (Or.inr hb)))
        · rw [hd2] at hmem
          refine ih _ _ ?_ e2 hmem
          rintro be0 (hb | hb | hb)
          · exact hinv2 be0 (Or.inr (Or.inl hb))
          · exact hinv2 be0 (Or.inr (Or.inr (Or.inl hb)))
          · rcases List.mem_append.mp hb with hb2 | hb2
            · exact hinv2 be0 (Or.inr (Or.inr (Or.inr hb2)))
            · rw [List.mem_singleton.mp hb2]
              exact hinv2 _ (Or.inl ⟨rfl, rfl, rfl⟩)
        · rw [hd2] at hmem
          exact hinv2 e2 (Or.inr hmem)

/-! ## Claim C2: precision bucketing -/

/-- Claim C2: the bucket loop of `step` (lines 202-240) raises iff some
gradient is sparse or of an unsupported dtype; on a non-raising run each
of the three precision buckets holds exactly the gradient/data of the
parameters of its dtype (so each eligible parameter lands in exactly the
bucket its dtype selects), together with the `exp_avg` / `exp_avg_sq`
tensors stored for it; and a non-sparse gradient of any other dtype raises
the fp16/fp32 `RuntimeError`. -/
theorem precision_bucketing (mw : Bool) (l : List (Param × Option Tensor))
    (st : StateMap) :
    ((buildBuckets mw l st emptyBuckets).2.2 = none ↔
      ∀ pr ∈ l, ∀ gr, pr.1.grad = some gr →
        gr.is_sparse = false ∧ pr.1.data.dtype ≠ .other) ∧
    ((buildBuckets mw l st emptyBuckets).2.2 = none →
      (buildBuckets mw l st emptyBuckets).2.1.b16.map (fun e => (e.pid, e.g, e.p))
          = l.filterMap (bucketSel .f16) ∧
      (buildBuckets mw l st emptyBuckets).2.1.bbf.map (fun e => (e.pid, e.g, e.p))
          = l.filterMap (bucketSel .bf16) ∧
      (buildBuckets mw l st emptyBuckets).2.1.b32.map (fun e => (e.pid, e.g, e.p))
          = l.filterMap (bucketSel .f32)) ∧
    (∀ e2, (e2 ∈ (buildBuckets mw l st emptyBuckets).2.1.b16 ∨
            e2 ∈ (buildBuckets mw l st emptyBuckets).2.1.bbf ∨
            e2 ∈ (buildBuckets mw l st emptyBuckets).2.1.b32) →
      ∃ s, findSt (buildBuckets mw l st emptyBuckets).1 e2.pid = some s ∧
        s.exp_avg = e2.m ∧ s.exp_avg_sq = e2.v) ∧
    ((∀ pr ∈ l, ∀ gr, pr.1.grad = some gr → gr.is_sparse = false) →
      (∃ pr ∈ l, ∃ gr, pr.1.grad = some gr ∧ pr.1.data.dtype = .other) →
      (buildBuckets mw l st emptyBuckets).2.2 = some dtypeMsg) := by
  refine ⟨buildBuckets_err_none_iff mw l st emptyBuckets, ?_, ?_,
    buildBuckets_dtype_err mw l st emptyBuckets⟩
  · intro herr
    have h := buildBuckets_bucket_char mw l st emptyBuckets herr
    simpa [emptyBuckets] using h
  · refine buildBuckets_entries_state mw l st emptyBuckets ?_
    rintro e2 (h | h | h) <;> simp [emptyBuckets] at h

def sampleP4 : Param := ⟨4, ⟨Dtype.other, [1], [0], false⟩, some ⟨Dtype.other, [1], [1], false⟩⟩

/-- Closed witness for C2. -/
theorem precision_bucketing_witness :
    (buildBuckets false [(sampleP1, none), (sampleP2, none), (sampleP3, none)]
        [] emptyBuckets).2.1.b16.map (fun e => (e.pid, e.g, e.p))
      = [(sampleP1, none), (sampleP2, none), (sampleP3, none)].filterMap
          (bucketSel .f16) ∧
    (buildBuckets false [(sampleP4, none)] [] emptyBuckets).2.2 = some dtypeMsg := by
  constructor
  · exact ((precision_bucketing false
      [(sampleP1, none), (sampleP2, none), (sampleP3, none)] []).2.1 rfl).1
  · refine (precision_bucketing false [(sampleP4, none)] []).2.2.2 ?_ ?_
    · rintro pr hpr gr hgr
      rcases List.mem_cons.mp hpr with rfl | h2
      · injection hgr with h
        rw [← h]
      · simp at h2
    · exact ⟨(sampleP4, none), List.mem_cons_self _ _,
        ⟨Dtype.other, [1], [1], false⟩, rfl, rfl⟩

/-- Lookup after an in-place entry update. -/
theorem updEntry_find (st : StateMap) (pid q : Nat) (f : ParamState → ParamState) :
    findSt (updEntry st pid f) q =
      if pid = q then (findSt st q).map f else findSt st q := by
  induction st with
  | nil => simp [updEntry, findSt]
  | cons kv rest ih =>
    rcases kv with ⟨k, v⟩
    have hcons : updEntry ((k, v) :: rest) pid f
        = (if k = pid then (k, f v) else (k, v)) :: updEntry rest pid f := rfl
    rw [hcons]
    by_cases hk : k = pid
    · rw [if_pos hk]
      subst hk
      simp only [findSt]
      by_cases hq : k = q
      · simp [hq]
      · simp [hq, ih]
    · rw [if_neg hk]
      simp only [findSt]
      by_cases hq : k = q
      · have hpq : ¬(pid = q) := fun h => hk (hq.trans h.symm)
        simp [hq, hpq]
      · simp [hq, ih]

/-- `floatPass` never creates entries. -/
theorem floatPass_none : ∀ (params : List Param) (st : StateMap) (q : Nat),
    findSt st q = none → findSt (floatPass params st) q = none := by
  intro params
  induction params with
  | nil =>
    intro st q h
    exact h
  | cons p rest ih =>
    intro st q h
    rw [floatPass, List.foldl_cons]
    rw [← floatPass]
    cases hf : findSt st p.pid with
    | none => exact ih st q h
    | some e0 =>
      refine ih _ q ?_
      rw [updEntry_find]
      by_cases hpq : p.pid = q
      · rw [if_pos hpq, h]
        rfl
      · rw [if_neg hpq]
        exact h

/-- `floatPass` preserves "the entry at `q`, if any, is float32". -/
theorem floatPass_preserve_f32 : ∀ (params : List Param) (st : StateMap) (q : Nat),
    (∀ e, findSt st q = some e →
      e.exp_avg.dtype = Dtype.f32 ∧ e.exp_avg_sq.dtype = Dtype.f32) →
    ∀ e, findSt (floatPass params st) q = some e →
      e.exp_avg.dtype = Dtype.f32 ∧ e.exp_avg_sq.dtype = Dtype.f32 := by
  intro params
  induction params with
  | nil =>
    intro st q h
    exact h
  | cons p rest ih =>
    intro st q h
    rw [floatPass, List.foldl_cons, ← floatPass]
    cases hf : findSt st p.pid with
    | none => exact ih st q h
    | some e0 =>
      refine ih _ q ?_
      intro e he
      rw [updEntry_find] at he
      by_cases hpq : p.pid = q
      · rw [if_pos hpq] at he
        cases hfq : findSt st q with
        | none =>
          rw [hfq] at he
          simp at he
        | some e1 =>
          rw [hfq] at he
          have he2 : some (⟨e1.exp_avg.float, e1.exp_avg_sq.float⟩ : ParamState)
              = some e := he
          cases he2
          exact ⟨rfl, rfl⟩
      · rw [if_neg hpq] at he
        exact h e he

/-- Every parameter visited by `floatPass` that has an entry comes out with
float32 moment buffers. -/
theorem floatPass_visits : ∀ (params : List Param) (st : StateMap),
    ∀ p ∈ params, ∀ e, findSt (floatPass params st) p.pid = some e →
      e.exp_avg.dtype = Dtype.f32 ∧ e.exp_avg_sq.dtype = Dtype.f32 := by
  intro params
  induction params with
  | nil =>
    intro st p hp
    simp at hp
  | cons p0 rest ih =>
    intro st p hp e he
    rw [floatPass, List.foldl_cons, ← floatPass] at he
    rcases List.mem_cons.mp hp with rfl | hp2
    · cases hf : findSt st p.pid with
      | none =>
        rw [hf] at he
        rw [floatPass_none rest st p.pid hf] at he
        exact absurd he (by simp)
      | some e0 =>
        rw [hf] at he
        refine floatPass_preserve_f32 rest _ p.pid ?_ e he
        intro e1 he1
        rw [updEntry_find, if_pos rfl, hf] at he1
        have he2 : some (⟨e0.exp_avg.float, e0.exp_avg_sq.float⟩ : ParamState)
            = some e1 := he1
        cases he2
        exact ⟨rfl, rfl⟩
    · cases hf : findSt st p0.pid with
      | none =>
        rw [hf] at he
        exact ih st p hp2 e he
      | some e0 =>
        rw [hf] at he
        exact ih _ p hp2 e he

/-- Pairs of a list zipped with its own image are graph pairs of the map. -/
theorem zip_map_self {α β : Type} (f : α → β) :
    ∀ (l : List α), ∀ pr ∈ l.zip (l.map f), pr.2 = f pr.1 := by
  intro l
  induction l with
  | nil =>
    intro pr hpr
    simp at hpr
  | cons a l ih =>
    intro pr hpr
    rw [List.map_cons, List.zip_cons_cons] at hpr
    rcases List.mem_cons.mp hpr with rfl | hpr2
    · rfl
    · exact ih pr hpr2

/-- The group-by-group state fold preserves "the entry at `q`, if any, is
float32". -/
theorem load_fold_preserve_f32 : ∀ (gs : List ParamGroup) (st : StateMap) (q : Nat),
    (∀ e, findSt st q = some e →
      e.exp_avg.dtype = Dtype.f32 ∧ e.exp_avg_sq.dtype = Dtype.f32) →
    ∀ e, findSt (gs.foldl (fun st2 g2 => floatPass g2.params st2) st) q = some e →
      e.exp_avg.dtype = Dtype.f32 ∧ e.exp_avg_sq.dtype = Dtype.f32 := by
  intro gs
  induction gs with
  | nil =>
    intro st q h
    exact h
  | cons g0 rest ih =>
    intro st q h
    rw [List.foldl_cons]
    exact ih (floatPass g0.params st) q (floatPass_preserve_f32 g0.params st q h)

/-- The state fold of `load_state_dict` makes the moment buffers of every
listed parameter float32 (whenever that parameter has an entry at all). -/
theorem load_fold_f32 : ∀ (gs : List ParamGroup) (st : StateMap),
    ∀ g ∈ gs, ∀ p ∈ g.params, ∀ e,
      findSt (gs.foldl (fun st2 g2 => floatPass g2.params st2) st) p.pid = some e →
      e.exp_avg.dtype = Dtype.f32 ∧ e.exp_avg_sq.dtype = Dtype.f32 := by
  intro gs
  induction gs with
  | nil =>
    intro st g hg
    simp at hg
  | cons g0 rest ih =>
    intro st g hg p hp e he
    rw [List.foldl_cons] at he
    rcases List.mem_cons.mp hg with rfl | hg2
    · exact load_fold_preserve_f32 rest (floatPass g.params st) p.pid
        (fun e1 he1 => floatPass_visits g.params st p hp e1 he1) e he
    · exact ih (floatPass g0.params st) g hg2 p hp e he

/-! ## Claim C7: `load_state_dict` normalisation -/

/-- Claim C7: after `load_state_dict`, every listed parameter that has a
state entry has float32 `exp_avg` and `exp_avg_sq` buffers, and in
non-capturable mode a per-group `step` that was loaded as a tensor is
converted to a Python number (with its value preserved). -/
theorem load_state_dict_normalises (o : FusedAdam) :
    (∀ g ∈ o.param_groups, ∀ p ∈ g.params, ∀ e,
      findSt o.load_state_dict.state p.pid = some e →
        e.exp_avg.dtype = Dtype.f32 ∧ e.exp_avg_sq.dtype = Dtype.f32) ∧
    (o.capturable = false →
      ∀ pr ∈ o.param_groups.zip o.load_state_dict.param_groups,
        ∀ v : Int, pr.1.step = some (.tensor v) → pr.2.step = some (.pyInt v)) := by
  constructor
  · intro g hg p hp e he
    exact load_fold_f32 o.param_groups o.state g hg p hp e he
  · intro hcap pr hpr v hstep
    have hgroups : o.load_state_dict.param_groups
        = o.param_groups.map (loadGroup o.capturable) := rfl
    rw [hgroups] at hpr
    have h2 := zip_map_self (loadGroup o.capturable) o.param_groups pr hpr
    rw [h2, hcap]
    simp [loadGroup, hstep]

def sampleLoadedGroup : ParamGroup := { sampleGroup with step := some (.tensor 5) }

def sampleLoaded : FusedAdam :=
  ⟨1, false, false, [sampleLoadedGroup], none,
    [(1, ⟨⟨Dtype.f16, [2], [0, 0], false⟩, ⟨Dtype.f16, [2], [0, 0], false⟩⟩)], 0⟩

/-- Closed witness for C7. -/
theorem load_state_dict_normalises_witness :
    ((⟨⟨Dtype.f32, [2], [0, 0], false⟩, ⟨Dtype.f32, [2], [0, 0], false⟩⟩ : ParamState).exp_avg.dtype
        = Dtype.f32 ∧
     (⟨⟨Dtype.f32, [2], [0, 0], false⟩, ⟨Dtype.f32, [2], [0, 0], false⟩⟩ : ParamState).exp_avg_sq.dtype
        = Dtype.f32) ∧
    (loadGroup false sampleLoadedGroup).step = some (.pyInt 5) :=
  ⟨(load_state_dict_normalises sampleLoaded).1 sampleLoadedGroup (by decide)
      sampleP1 (by decide) _ (by decide),
   (load_state_dict_normalises sampleLoaded).2 rfl
      (sampleLoadedGroup, loadGroup false sampleLoadedGroup) (by decide) 5 rfl⟩

/-! ## Claim C4: the per-group step counter -/

/-- The buffer leaving `processGroup`: the group performs the `copy_` of
lines 244-251 exactly when it is capturable, non-empty and its bucket loop
did not raise; otherwise the buffer is untouched. -/
theorem processGroup_buf (capt mw : Bool) (awm i : Nat) (g : ParamGroup)
    (gm : MasterGroup) (st : StateMap) (buf : Int) (sc : Option GradScaler) :
    (processGroup capt mw awm i g gm st buf sc).buf =
      if capt = true ∧ g.params.isEmpty = false ∧
          (buildBuckets mw (g.params.zip gm.params) st emptyBuckets).2.2 = none
        then foundInfOf sc else buf := by
  unfold processGroup
  split
  · next h =>
    have hnc : ¬(capt = true ∧ g.params.isEmpty = false ∧
        (buildBuckets mw (g.params.zip gm.params) st emptyBuckets).2.2 = none) := by
      rintro ⟨_, h2, _⟩
      rw [h] at h2
      exact absurd h2 (by simp)
    rw [if_neg hnc]
  · next h =>
    rcases hb : buildBuckets mw (g.params.zip gm.params) st emptyBuckets with ⟨st', bk, err⟩
    simp only [hb]
    cases err with
    | some e =>
      have hnc : ¬(capt = true ∧ g.params.isEmpty = false ∧
          (some e : Option String) = none) := by
        rintro ⟨_, _, h3⟩
        exact absurd h3 (by simp)
      rw [if_neg hnc]
    | none =>
      cases capt with
      | true =>
        have hc : (true = true ∧ g.params.isEmpty = false ∧
            (none : Option String) = none) := ⟨rfl, by simpa using h, rfl⟩
        rw [if_pos hc]
        rfl
      | false =>
        have hnc : ¬(false = true ∧ g.params.isEmpty = false ∧
            (none : Option String) = none) := by
          rintro ⟨h1, _, _⟩
          exact absurd h1 (by simp)
        rw [if_neg hnc]
        rfl

/-- Positional membership on the left of a zip against a list at least as
long. -/
theorem zip_getElem_left {α β : Type} : ∀ (l : List α) (m : List β) (k : Nat) (x : α),
    l[k]? = some x → l.length ≤ m.length → ∃ y, (l.zip m)[k]? = some (x, y) := by
  intro l
  induction l with
  | nil =>
    intro m k x hk
    simp at hk
  | cons a l ih =>
    intro m k x hk hlen
    cases m with
    | nil => simp at hlen
    | cons b m =>
      cases k with
      | zero =>
        refine ⟨b, ?_⟩
        simp only [List.zip_cons_cons]
        simpa using hk
      | succ k2 =>
        obtain ⟨y, hy⟩ := ih m k2 x (by simpa using hk) (by simpa using hlen)
        refine ⟨y, ?_⟩
        simpa [List.zip_cons_cons] using hy

/-- Taking a prefix of a zip and projecting left is taking the prefix of
the left list. -/
theorem zip_take_fst {α β : Type} : ∀ (l : List α) (m : List β) (k : Nat),
    l.length ≤ m.length → ((l.zip m).take k).map Prod.fst = l.take k := by
  intro l
  induction l with
  | nil =>
    intro m k _
    simp
  | cons a l ih =>
    intro m k hlen
    cases m with
    | nil => simp at hlen
    | cons b m =>
      cases k with
      | zero => simp
      | succ k2 =>
        rw [List.zip_cons_cons, List.take_succ_cons, List.take_succ_cons, List.map_cons]
        rw [ih m k2 (by simpa using hlen)]

/-- The groups after `step`: the processed zip prefix followed by the (in
practice empty) unprocessed tail. -/
theorem step_groups_eq (o : FusedAdam) (closure : Option Unit) (sc : Option GradScaler) :
    (o.step closure none none none none sc).opt.param_groups =
      (processGroups o.capturable o.master_weights o.adam_w_mode sc
        (o.param_groups.zip (mastersOf o)) 0 o.state o.dummy_overflow_buf).groups ++
      o.param_groups.drop (o.param_groups.zip (mastersOf o)).length := by
  simp [FusedAdam.step]

/-- Positional step-counter update across the whole group loop: on a
non-raising run, the group at position `k` (if non-empty) gets its step
rewritten by `updateStep`, reading the buffer as it stands when the loop
reaches it — the incoming buffer while every earlier group is empty, and
the value copied by the previous non-empty capturable group (the scaler's
inf check, `foundInfOf sc`) afterwards. -/
theorem processGroups_step_update (capt mw : Bool) (awm : Nat) (sc : Option GradScaler) :
    ∀ (l : List (ParamGroup × MasterGroup)) (i : Nat) (st : StateMap) (buf : Int)
      (k : Nat) (pr : ParamGroup × MasterGroup),
      (processGroups capt mw awm sc l i st buf).err = none →
      l[k]? = some pr →
      pr.1.params ≠ [] →
      ∃ g', (processGroups capt mw awm sc l i st buf).groups[k]? = some g' ∧
        g'.step = some (updateStep capt
          (if capt = true ∧ ∃ pr0 ∈ l.take k, pr0.1.params ≠ []
            then foundInfOf sc else buf)
          pr.1.step) := by
  intro l
  induction l with
  | nil =>
    intro i st buf k pr _ hk
    simp at hk
  | cons hd rest ih =>
    intro i st buf k pr herr hk hne
    rcases hd with ⟨g, gm⟩
    rw [processGroups] at herr ⊢
    cases herr2 : (processGroup capt mw awm i g gm st buf sc).err with
    | some e =>
      rw [herr2] at herr
      simp at herr
    | none =>
      rw [herr2] at herr
      simp only at herr ⊢
      cases k with
      | zero =>
        have hpr : pr = (g, gm) := by simpa using hk.symm
        subst hpr
        have hgrp := processGroup_group capt mw awm i g gm st buf sc
        rw [if_neg (by simpa [List.isEmpty_iff] using hne)] at hgrp
        refine ⟨(processGroup capt mw awm i g gm st buf sc).group, by simp, ?_⟩
        rw [hgrp]
        have hnc : ¬(capt = true ∧
            ∃ pr0 ∈ ((g, gm) :: rest).take 0, pr0.1.params ≠ []) := by
          rintro ⟨_, pr0, hpr0, _⟩
          simp at hpr0
        rw [if_neg hnc]
      | succ k2 =>
        have hk2 : rest[k2]? = some pr := by simpa using hk
        obtain ⟨g', hg', hstep⟩ := ih (i + 1)
          (processGroup capt mw awm i g gm st buf sc).state
          (processGroup capt mw awm i g gm st buf sc).buf k2 pr herr hk2 hne
        refine ⟨g', by simpa using hg', ?_⟩
        rw [hstep]
        refine congrArg (fun b => some (updateStep capt b pr.1.step)) ?_
        rw [List.take_succ_cons]
        have hbuf := processGroup_buf capt mw awm i g gm st buf sc
        split_ifs with h1 h2 h2
        · rfl
        · exact absurd ⟨h1.1, h1.2.elim (fun pr0 hpr0 =>
            ⟨pr0, List.mem_cons_of_mem _ hpr0.1, hpr0.2⟩)⟩ h2
        · obtain ⟨hcapt, pr0, hpr0, hpne⟩ := h2
          rcases List.mem_cons.mp hpr0 with rfl | hpr02
          · have hbb : (buildBuckets mw (g.params.zip gm.params) st emptyBuckets).2.2
                = none := by
              have hpe := processGroup_err capt mw awm i g gm st buf sc
              rw [herr2, if_neg (by simpa [List.isEmpty_iff] using hpne)] at hpe
              exact hpe.symm
            rw [hbuf, if_pos ⟨hcapt, by simpa [List.isEmpty_iff] using hpne, hbb⟩]
          · exact absurd ⟨hcapt, pr0, hpr02, hpne⟩ h1
        · rw [hbuf, if_neg]
          rintro ⟨hcapt, hgne, _⟩
          have hgne2 : g.params ≠ [] := by simpa [List.isEmpty_iff] using hgne
          exact h2 ⟨hcapt, (g, gm), List.mem_cons_self _ _, hgne2⟩

/-- Claim C4: for every non-empty parameter group of a successful `step`
call (any number of groups), the per-group step counter is maintained: in
non-capturable mode it is the Python int `1` after the first call and
incremented by exactly 1 on later calls; in capturable mode it is an int32
device tensor (modelled with unbounded integer value), created as
`tensor([1])` on the first call, and otherwise incremented by 1 exactly
when the overflow buffer — as it stands when this group's increment runs —
does not equal 1: that is the optimizer's incoming buffer while every
earlier group is empty, and the value copied by the previous non-empty
group's `copy_` (the scaler's inf check) afterwards. -/
theorem step_counter_update (o : FusedAdam) (closure : Option Unit)
    (sc : Option GradScaler)
    (hok : (o.step closure none none none none sc).res = .ok ())
    (hlen : o.param_groups.length ≤ (mastersOf o).length)
    (k : Nat) (g : ParamGroup) (hg : o.param_groups[k]? = some g)
    (hne : g.params ≠ []) :
    ∃ g', (o.step closure none none none none sc).opt.param_groups[k]? = some g' ∧
      (o.capturable = false → g.step = none → g'.step = some (.pyInt 1)) ∧
      (o.capturable = false → ∀ n : Int, g.step = some (.pyInt n) →
        g'.step = some (.pyInt (n + 1))) ∧
      (o.capturable = true → g.step = none → g'.step = some (.tensor 1)) ∧
      (o.capturable = true → (∀ g0 ∈ o.param_groups.take k, g0.params = []) →
        ∀ s, g.step = some s → g'.step = some (.tensor (stepValToInt s +
          (if o.dummy_overflow_buf ≠ 1 then 1 else 0)))) ∧
      (o.capturable = true → (∃ g0 ∈ o.param_groups.take k, g0.params ≠ []) →
        ∀ s, g.step = some s → g'.step = some (.tensor (stepValToInt s +
          (if foundInfOf sc ≠ 1 then 1 else 0)))) := by
  have herr := (step_res_ok_iff o closure sc).mp hok
  obtain ⟨gm, hzk⟩ := zip_getElem_left o.param_groups (mastersOf o) k g hg hlen
  obtain ⟨g', hg', hstep⟩ := processGroups_step_update o.capturable o.master_weights
    o.adam_w_mode sc (o.param_groups.zip (mastersOf o)) 0 o.state o.dummy_overflow_buf
    k (g, gm) herr hzk hne
  replace hstep : g'.step = some (updateStep o.capturable
      (if o.capturable = true ∧
          ∃ pr0 ∈ (o.param_groups.zip (mastersOf o)).take k, pr0.1.params ≠ []
        then foundInfOf sc else o.dummy_overflow_buf)
      g.step) := hstep
  have hkz : k < (o.param_groups.zip (mastersOf o)).length := by
    by_contra hcon
    rw [List.getElem?_eq_none (le_of_not_lt hcon)] at hzk
    exact absurd hzk (by simp)
  have hglen : (processGroups o.capturable o.master_weights o.adam_w_mode sc
      (o.param_groups.zip (mastersOf o)) 0 o.state o.dummy_overflow_buf).groups.length
      = (o.param_groups.zip (mastersOf o)).length := by
    have hmap := congrArg List.length (processGroups_params o.capturable
      o.master_weights o.adam_w_mode sc (o.param_groups.zip (mastersOf o)) 0 o.state
      o.dummy_overflow_buf)
    simpa using hmap
  have hout : (o.step closure none none none none sc).opt.param_groups[k]? = some g' := by
    rw [step_groups_eq]
    rw [List.getElem?_append, if_pos (by rw [hglen]; exact hkz)]
    exact hg'
  have htake : ((o.param_groups.zip (mastersOf o)).take k).map Prod.fst
      = o.param_groups.take k := zip_take_fst o.param_groups (mastersOf o) k hlen
  refine ⟨g', hout, ?_, ?_, ?_, ?_, ?_⟩
  · intro hc hs
    rw [hstep, hc, hs]
    simp [updateStep]
  · intro hc n hs
    rw [hstep, hc, hs]
    simp [updateStep]
  · intro hc hs
    rw [hstep, hc, hs]
    simp [updateStep]
  · intro hc hall s hs
    rw [hstep, hc, hs]
    have hnc : ¬(true = true ∧
        ∃ pr0 ∈ (o.param_groups.zip (mastersOf o)).take k, pr0.1.params ≠ []) := by
      rintro ⟨_, pr0, hpr0, hpne⟩
      refine hpne (hall pr0.1 ?_)
      rw [← htake]
      exact List.mem_map_of_mem Prod.fst hpr0
    rw [if_neg hnc]
    simp [updateStep]
  · intro hc hex s hs
    rw [hstep, hc, hs]
    have hcc : (true = true ∧
        ∃ pr0 ∈ (o.param_groups.zip (mastersOf o)).take k, pr0.1.params ≠ []) := by
      refine ⟨rfl, ?_⟩
      obtain ⟨g0, hg0, hne0⟩ := hex
      rw [← htake] at hg0
      obtain ⟨pr0, hpr0, heq⟩ := List.mem_map.mp hg0
      exact ⟨pr0, hpr0, heq.symm ▸ hne0⟩
    rw [if_pos hcc]
    simp [updateStep]

def sampleP5 : Param := ⟨5, sampleT32, some ⟨Dtype.f32, [2], [1, 1], false⟩⟩

def sampleGroup2 : ParamGroup := ⟨[sampleP5], .num 1, true, (1, 2), 1, 0, some (.tensor 7)⟩

def sampleOptC2 : FusedAdam := ⟨1, true, false, [sampleGroup, sampleGroup2], none, [], 0⟩

/-- Closed witness for C4, at a capturable two-group optimizer with a
scaler whose inf check is 1: the second group's increment reads the buffer
copied by the first group, so its step tensor stays at 7. -/
theorem step_counter_update_witness :
    ∃ g', (sampleOptC2.step none none none none none
        (some ⟨1, 4⟩)).opt.param_groups[1]? = some g' ∧
      g'.step = some (.tensor 7) := by
  obtain ⟨g', hg', _, _, _, _, h5⟩ := step_counter_update sampleOptC2 none (some ⟨1, 4⟩)
    rfl (by decide) 1 sampleGroup2 rfl (by decide)
  refine ⟨g', hg', ?_⟩
  have h7 := h5 rfl (by decide) (.tensor 7) rfl
  simpa [stepValToInt, foundInfOf] using h7
